import Mathlib

/-!
Verification development for the CRPropa "basics" notebook.

The notebook (src/basics/basics.v4.ipynb) configures and runs the CRPropa
transport engine: a ModuleList scheduler driving mutable Candidates through
an ordered list of modules (SimplePropagation, interactions, MinimumEnergy,
Observer) and a composable Source.  The engine itself is an external
collaborator of this repository, so the definitions below are modelled from
the specification of that engine (step-size negotiation, candidate
lifecycle, break conditions, observer detection, source composition), with
integers standing in for the engine's floating-point state.
-/

namespace CRPropa

/-- Modelled from the spec: 3-vectors used for position and direction; in
the 1D convention only the x component is physically meaningful. -/
structure Vec3 where
  x : ℤ
  y : ℤ
  z : ℤ
deriving DecidableEq, Repr

/-- Modelled from the spec: the mutable transport state of one particle
(the engine's Candidate record). -/
structure Candidate where
  particleId : Int
  currentEnergy : ℤ
  sourceEnergy : ℤ
  currentPosition : Vec3
  currentDirection : Vec3
  sourcePosition : Vec3
  sourceDirection : Vec3
  trajectoryLength : ℤ
  redshift : ℤ
  active : Bool
  tags : List String
deriving DecidableEq, Repr

/-- Particle code of a nucleus with mass number `a` and charge `z`
(CRPropa encoding, `nucleusId(1,1) = 1000010010` as printed by the
notebook). -/
def nucleusId (a z : Int) : Int :=
  1000000000 + z * 10000 + a * 10

/-- Modelled from the spec: the 1D constructor used in the notebook,
`Candidate(id, E, Vector3d(x, 0, 0))`; cosmic rays start from positive
coordinates and propagate in the negative x direction, so the default
direction is `(-1, 0, 0)`. -/
def mkCandidate1D (pid : Int) (e : ℤ) (x : ℤ) : Candidate :=
  { particleId := pid
    currentEnergy := e
    sourceEnergy := e
    currentPosition := ⟨x, 0, 0⟩
    currentDirection := ⟨-1, 0, 0⟩
    sourcePosition := ⟨x, 0, 0⟩
    sourceDirection := ⟨-1, 0, 0⟩
    trajectoryLength := 0
    redshift := 0
    active := true
    tags := [] }

def Candidate.deactivate (c : Candidate) : Candidate :=
  { c with active := false }

def Candidate.addTag (t : String) (c : Candidate) : Candidate :=
  { c with tags := t :: c.tags }

def detectedTag : String := "Detected"
def belowThresholdTag : String := "BelowThreshold"
def exhaustedTag : String := "Exhausted"
def failedTag : String := "Failed"

/-- Modelled from the spec: an interaction module.  `sampleLen` is the
stochastic interaction length drawn for the candidate at the start of the
pass (the abstracted seeded random source), `effect` is the
energy-loss/species-change applied when the interaction fires (`none`
models a per-candidate domain error), and `secondaries` lists the
`(energy, particleId)` of secondaries emitted on firing. -/
structure Interaction where
  sampleLen : Candidate → ℤ
  effect : Candidate → Option (ℤ × Int)
  secondaries : Candidate → List (ℤ × Int)

/-- Modelled from the spec: an Observer holds detection points (x
coordinates, 1D convention) and a `makeInactive` policy whose default is
`true` (the notebook prints `MakeInactive: yes` for a plain Observer). -/
structure Observer where
  points : List ℤ := []
  makeInactive : Bool := true
deriving Repr

def Observer.new : Observer := {}

def Observer.addPoint (ob : Observer) (p : ℤ) : Observer :=
  { ob with points := ob.points ++ [p] }

/-- Detection predicate: the candidate crossed the point from the positive
side during this step (evaluated on the pre-pass and post-step x
coordinates). -/
def Observer.detects (ob : Observer) (pre post : ℤ) : Bool :=
  ob.points.any (fun p => decide (p < pre) && decide (post ≤ p))

/-- Modelled from the spec: the module variants exercised by the notebook:
propagator, interactions, the MinimumEnergy and maximum-trajectory break
conditions, and the Observer. -/
inductive Module where
  | propagation (maxStep : ℤ)
  | interaction (i : Interaction)
  | minimumEnergy (emin : ℤ)
  | maximumTrajectory (maxLen : ℤ)
  | observer (ob : Observer)

/-- Modelled from the spec: the propagation module advances the position
along the current direction by the accepted step and increments the
trajectory length. -/
def advance (a : ℤ) (c : Candidate) : Candidate :=
  { c with
    currentPosition :=
      ⟨c.currentPosition.x + a * c.currentDirection.x,
       c.currentPosition.y + a * c.currentDirection.y,
       c.currentPosition.z + a * c.currentDirection.z⟩
    trajectoryLength := c.trajectoryLength + a }

/-- Modelled from the spec: step-size negotiation, carrying the current
proposal through the module list in configured order.  A propagator
proposes its (non-negativity clamped) maximal step; each interaction may
only shrink an existing proposal to its own (clamped) sampled interaction
length; other modules do not take part.  `none` means no module has
proposed a step yet. -/
def negotiateFrom (c : Candidate) : Option ℤ → List Module → Option ℤ
  | acc, [] => acc
  | acc, .propagation p :: rest =>
      negotiateFrom c
        (some (match acc with
               | none => max 0 p
               | some s => min s (max 0 p))) rest
  | acc, .interaction i :: rest =>
      negotiateFrom c (acc.map fun s => min s (max 0 (i.sampleLen c))) rest
  | acc, .minimumEnergy _ :: rest => negotiateFrom c acc rest
  | acc, .maximumTrajectory _ :: rest => negotiateFrom c acc rest
  | acc, .observer _ :: rest => negotiateFrom c acc rest

/-- Modelled from the spec: the accepted step of a pass is the result of
the negotiation fold started with no proposal. -/
def negotiate (c : Candidate) (ms : List Module) : Option ℤ :=
  negotiateFrom c none ms

/-- Modelled from the spec: a secondary candidate inherits the parent's
position, direction and redshift but has independent energy and species;
it is a fresh, fully valid candidate. -/
def mkSecondary (parent : Candidate) (s : ℤ × Int) : Candidate :=
  { particleId := s.2
    currentEnergy := s.1
    sourceEnergy := s.1
    currentPosition := parent.currentPosition
    currentDirection := parent.currentDirection
    sourcePosition := parent.currentPosition
    sourceDirection := parent.currentDirection
    trajectoryLength := 0
    redshift := parent.redshift
    active := true
    tags := [] }

/-- Modelled from the spec: the effect phase of one pass.  Modules act in
configured order on the current state `c`; `cPre` is the state at the
start of the pass (used for interaction-length comparison and for the
observer's crossing test), `accepted` the negotiated step.  Once a
candidate is inactive the remaining modules are no-ops; an interaction
whose sampled length equals the accepted step applies its effect and emits
its secondaries, and a domain error (`effect = none`) deactivates the
candidate with a failure tag. -/
def applyEffects (accepted : ℤ) (cPre : Candidate) :
    List Module → Candidate → Candidate × List Candidate
  | [], c => (c, [])
  | m :: rest, c =>
    if c.active then
      match m with
      | .propagation _ => applyEffects accepted cPre rest (advance accepted c)
      | .interaction i =>
          if i.sampleLen cPre = accepted then
            match i.effect c with
            | none => ((c.addTag failedTag).deactivate, [])
            | some e =>
                let c1 : Candidate :=
                  { c with currentEnergy := e.1, particleId := e.2 }
                let r := applyEffects accepted cPre rest c1
                (r.1, (i.secondaries cPre).map (mkSecondary c1) ++ r.2)
          else applyEffects accepted cPre rest c
      | .minimumEnergy x =>
          applyEffects accepted cPre rest
            (if c.currentEnergy < x then (c.addTag belowThresholdTag).deactivate
             else c)
      | .maximumTrajectory l =>
          applyEffects accepted cPre rest
            (if l < c.trajectoryLength then (c.addTag exhaustedTag).deactivate
             else c)
      | .observer ob =>
          applyEffects accepted cPre rest
            (if ob.detects cPre.currentPosition.x c.currentPosition.x then
               (if ob.makeInactive then (c.addTag detectedTag).deactivate
                else c.addTag detectedTag)
             else c)
    else (c, [])

/-- Modelled from the spec: scheduler and configuration errors.
Processing an inactive candidate is an invariant violation raised as a
hard failure, distinct from per-candidate domain errors. -/
inductive RunError where
  | emptyModuleList
  | invalidSpectrumBounds
  | unknownParticleCode
  | sourceExhausted
  | inactiveCandidate
  | noStepProposed
  | workLimit
deriving DecidableEq, Repr

/-- Modelled from the spec: one full pass of a candidate through the
module list: negotiate the accepted step, then apply all module effects in
configured order.  Exactly one step is advanced per pass.  A pass over an
inactive candidate is a hard failure. -/
def pass (ms : List Module) (c : Candidate) :
    Except RunError (Candidate × List Candidate) :=
  if c.active then
    match negotiate c ms with
    | none => .error .noStepProposed
    | some a => .ok (applyEffects a c ms c)
  else .error .inactiveCandidate

/-- Modelled from the spec: drive one candidate through repeated passes
while it is active (fuel-bounded loop), collecting the secondaries emitted
along the way.  Inactive candidates are returned untouched and are never
handed to `pass`. -/
def drive : Nat → List Module → Candidate →
    Except RunError (Candidate × List Candidate)
  | 0, _, c => .ok (c, [])
  | fuel + 1, ms, c =>
    if c.active then
      match pass ms c with
      | .error e => .error e
      | .ok (c1, secs) =>
          match drive fuel ms c1 with
          | .error e => .error e
          | .ok (c2, secs2) => .ok (c2, secs ++ secs2)
    else .ok (c, [])

/-- Modelled from the spec: the scheduler worklist.  Pop a candidate,
drive it to termination, push its secondaries onto the worklist for their
own future passes (they do not interrupt the current candidate), and drain
until the worklist is empty.  `work` bounds the number of pops. -/
def driveWork : Nat → Nat → List Module → List Candidate →
    Except RunError (List Candidate)
  | _, _, _, [] => .ok []
  | 0, _, _, _ :: _ => .error .workLimit
  | work + 1, fuel, ms, c :: rest =>
    match drive fuel ms c with
    | .error e => .error e
    | .ok (c1, secs) =>
        match driveWork work fuel ms (rest ++ secs) with
        | .error e => .error e
        | .ok out => .ok (c1 :: out)

/-- Modelled from the spec: the batch entry point; an empty module list is
a configuration error, fatal before any candidate is processed. -/
def runBatch (work fuel : Nat) (ms : List Module) (cs : List Candidate) :
    Except RunError (List Candidate) :=
  if ms.isEmpty then .error .emptyModuleList
  else driveWork work fuel ms cs

/-- Modelled from the spec: composable source properties, each setting one
field group of a freshly created candidate (the notebook uses
SourcePosition, SourceParticleType and SourcePowerLawSpectrum). -/
inductive SourceProperty where
  | position (x : ℤ)
  | particleType (pid : Int)
  | powerLawSpectrum (emin emax index : ℤ)

/-- Modelled from the spec: a Source is a list of properties; `capacity`
models a source that can be exhausted (`none` = unlimited). -/
structure Source where
  props : List SourceProperty := []
  capacity : Option Nat := none

/-- A particle code is known when it is the nucleus encoding of some valid
mass number and charge. -/
def isKnownParticleCode (pid : Int) : Bool :=
  let r := pid - 1000000000
  let z := r / 10000
  let a := (r % 10000) / 10
  decide (1 ≤ a) && decide (0 ≤ z) && decide (z ≤ a) &&
    decide (pid = nucleusId a z)

/-- Modelled from the spec: applying one source property to a candidate
under construction; the energy drawn by the spectrum property is supplied
by the (abstracted) seeded random source as `drawnE`. -/
def SourceProperty.applyTo (drawnE : ℤ) (c : Candidate) :
    SourceProperty → Candidate
  | .position x =>
      { c with currentPosition := ⟨x, 0, 0⟩, sourcePosition := ⟨x, 0, 0⟩ }
  | .particleType pid => { c with particleId := pid }
  | .powerLawSpectrum _ _ _ =>
      { c with currentEnergy := drawnE, sourceEnergy := drawnE }

/-- Modelled from the spec: `generate()` applies each configured property
once, in configuration order, to a blank candidate. -/
def Source.generate (src : Source) (drawnE : ℤ) : Candidate :=
  src.props.foldl (fun c p => p.applyTo drawnE c) (mkCandidate1D 0 0 0)

def Source.hasInvalidBounds (src : Source) : Bool :=
  src.props.any fun p =>
    match p with
    | .powerLawSpectrum emin emax _ => decide (emax < emin)
    | _ => false

def Source.hasUnknownParticle (src : Source) : Bool :=
  src.props.any fun p =>
    match p with
    | .particleType pid => !(isKnownParticleCode pid)
    | _ => false

def Source.exhaustedFor (src : Source) (count : Nat) : Bool :=
  match src.capacity with
  | none => false
  | some cap => decide (cap < count)

/-- Modelled from the spec: configuration validation performed before any
candidate is processed: empty module list, invalid spectrum bounds,
unknown particle code, source exhausted before `count`. -/
def validateConfig (ms : List Module) (src : Source) (count : Nat) :
    Option RunError :=
  if ms.isEmpty then some .emptyModuleList
  else if src.hasInvalidBounds then some .invalidSpectrumBounds
  else if src.hasUnknownParticle then some .unknownParticleCode
  else if src.exhaustedFor count then some .sourceExhausted
  else none

/-- Modelled from the spec: the `run(source, count)` entry point.
Configuration errors are fatal and surfaced before any candidate is
processed; otherwise `count` candidates are generated (with per-candidate
energy draws from the abstracted seeded random stream) and driven through
the module list. -/
def runSource (work fuel : Nat) (ms : List Module) (src : Source)
    (count : Nat) (draws : Nat → ℤ) : Except RunError (List Candidate) :=
  match validateConfig ms src count with
  | some e => .error e
  | none =>
      driveWork work fuel ms
        ((List.range count).map fun i => src.generate (draws i))

/-- Modelled from the spec: inverse-CDF sampling of a power-law energy
spectrum with density proportional to `E ^ index` on `[emin, emax]`:
the closed-form inverse when `index ≠ -1`, the logarithmic form when
`index = -1`.  `u` is the uniform draw from the seeded random source. -/
noncomputable def samplePowerLaw (emin emax index u : ℝ) : ℝ :=
  if index = -1 then
    Real.exp ((1 - u) * Real.log emin + u * Real.log emax)
  else
    (emin ^ (index + 1) + u * (emax ^ (index + 1) - emin ^ (index + 1))) ^
      (index + 1)⁻¹

/-- The cumulative distribution function of the density proportional to
`t ^ index` on `[emin, emax]`, written as a ratio of integrals. -/
noncomputable def powerLawCdf (emin emax index e : ℝ) : ℝ :=
  (∫ t in emin..e, t ^ index) / (∫ t in emin..emax, t ^ index)

/-- Whether a module is a propagator. -/
def Module.isPropagator : Module → Bool
  | .propagation _ => true
  | _ => false

/-- A module list with no propagator (used to describe the tail of the
recommended configuration order, where the propagator comes first). -/
def propagatorFree (ms : List Module) : Prop :=
  ∀ m ∈ ms, m.isPropagator = false

/-- The clamped interaction-length proposals contributed by the
interaction modules of a list, in configured order. -/
def interSamples (c : Candidate) (ms : List Module) : List ℤ :=
  ms.filterMap fun m =>
    match m with
    | .interaction i => some (max 0 (i.sampleLen c))
    | _ => none

/-- The modules of a pass that take part in the effect phase for accepted
step `a`: every non-interaction module, and exactly the interactions whose
sampled length equals `a`. -/
def firingModules (a : ℤ) (cPre : Candidate) (ms : List Module) :
    List Module :=
  ms.filter fun m =>
    match m with
    | .interaction i => decide (i.sampleLen cPre = a)
    | _ => true

/-- The 1D rectilinear invariant: direction `(-1, 0, 0)`, fixed source
position, and trajectory length equal to the distance travelled toward the
observer. -/
def inv1D (x0 : ℤ) (c : Candidate) : Prop :=
  c.currentDirection = ⟨-1, 0, 0⟩ ∧ c.sourcePosition = ⟨x0, 0, 0⟩ ∧
    c.trajectoryLength = x0 - c.currentPosition.x

/-- Scenario: an observer at x = 0 with the default policy. -/
def obsAt0 : Observer := Observer.new.addPoint 0

/-- Scenario: rectilinear propagation with maximal step `s` toward the
observer at 0. -/
def msObs (s : ℤ) : List Module :=
  [.propagation s, .observer obsAt0]

/-- Scenario: a continuous-loss interaction that always samples length `l`
and removes energy `d` each time it fires. -/
def lossInteraction (l d : ℤ) : Interaction :=
  { sampleLen := fun _ => l
    effect := fun c => some (c.currentEnergy - d, c.particleId)
    secondaries := fun _ => [] }

/-- Scenario: propagation, a constant-loss interaction and a MinimumEnergy
break condition, mirroring the notebook's module order. -/
def msMinE (s l d x : ℤ) : List Module :=
  [.propagation s, .interaction (lossInteraction l d), .minimumEnergy x]

/-- Scenario: an interaction that always fires for species 1 (its sampled
length 1 always wins the negotiation), changes the parent to species 0 and
emits exactly one secondary of species 2; it never fires for any other
species. -/
def spawnInteraction : Interaction :=
  { sampleLen := fun c => if c.particleId = 1 then 1 else 2
    effect := fun c =>
      if c.particleId = 1 then some (c.currentEnergy, 0)
      else some (c.currentEnergy, c.particleId)
    secondaries := fun c =>
      if c.particleId = 1 then [(c.currentEnergy, 2)] else [] }

/-- Scenario: module list for secondary production, with a maximum
trajectory length break condition driving every candidate to
termination. -/
def msSec : List Module :=
  [.propagation 1, .interaction spawnInteraction, .maximumTrajectory 2]

/-- A fresh input candidate of the secondary-production scenario. -/
def parentLike (c : Candidate) : Prop :=
  c.particleId = 1 ∧ c.active = true ∧ c.trajectoryLength = 0 ∧ c.tags = []

/-- A freshly spawned secondary of the secondary-production scenario. -/
def secLike (c : Candidate) : Prop :=
  c.particleId = 2 ∧ c.active = true ∧ c.trajectoryLength = 0 ∧ c.tags = []

/-- Scenario: an interaction whose effect raises a per-candidate domain
error whenever it fires. -/
def failInteraction : Interaction :=
  { sampleLen := fun _ => 1
    effect := fun _ => none
    secondaries := fun _ => [] }

/-- Scenario: module list in which the interaction always fires and always
raises a domain error. -/
def msFail : List Module :=
  [.propagation 1, .interaction failInteraction]

/-! ## Helper lemmas -/

theorem applyEffects_inactive (a : ℤ) (p : Candidate) (ms : List Module)
    (c : Candidate) (h : c.active = false) : applyEffects a p ms c = (c, []) := by
  cases ms with
  | nil => rfl
  | cons m rest => simp [applyEffects, h]

theorem pass_inactive (ms : List Module) (c : Candidate)
    (h : c.active = false) : pass ms c = .error .inactiveCandidate := by
  unfold pass
  rw [h]
  rfl

theorem drive_inactive (fuel : Nat) (ms : List Module) (c : Candidate)
    (h : c.active = false) : drive fuel ms c = .ok (c, []) := by
  cases fuel with
  | zero => rfl
  | succ n =>
      unfold drive
      rw [h]
      rfl

theorem driveWork_cons_inactive (w f : Nat) (ms : List Module)
    (c : Candidate) (h : c.active = false) (rest : List Candidate)
    (out : List Candidate) (hrest : driveWork w f ms rest = .ok out) :
    driveWork (w + 1) f ms (c :: rest) = .ok (c :: out) := by
  simp [driveWork, drive_inactive f ms c h, hrest]

theorem negotiateFrom_nonneg (c : Candidate) :
    ∀ (ms : List Module) (acc : Option ℤ),
      (∀ s, acc = some s → 0 ≤ s) →
      ∀ a, negotiateFrom c acc ms = some a → 0 ≤ a := by
  intro ms
  induction ms with
  | nil =>
      intro acc hacc a ha
      exact hacc a ha
  | cons m rest ih =>
      intro acc hacc a ha
      cases m with
      | propagation p =>
          refine ih _ ?_ a ha
          intro s hs
          cases acc with
          | none =>
              simp only [Option.some.injEq] at hs
              subst hs
              exact le_max_left 0 p
          | some t =>
              simp only [Option.some.injEq] at hs
              subst hs
              exact le_min (hacc t rfl) (le_max_left 0 p)
      | interaction i =>
          refine ih _ ?_ a ha
          intro s hs
          cases acc with
          | none => simp at hs
          | some t =>
              simp only [Option.map_some', Option.some.injEq] at hs
              subst hs
              exact le_min (hacc t rfl) (le_max_left 0 _)
      | minimumEnergy x => exact ih acc hacc a ha
      | maximumTrajectory l => exact ih acc hacc a ha
      | observer ob => exact ih acc hacc a ha

theorem negotiate_nonneg (c : Candidate) (ms : List Module) (a : ℤ)
    (h : negotiate c ms = some a) : 0 ≤ a :=
  negotiateFrom_nonneg c ms none (by intro s hs; cases hs) a h

/-- Master preservation lemma for the effect phase: any candidate
predicate closed under advancing, interaction effects, tagging and
deactivation is preserved by `applyEffects`. -/
theorem applyEffects_inv (a : ℤ) (p : Candidate) (P : Candidate → Prop)
    (hAdv : ∀ c, P c → P (advance a c))
    (hEff : ∀ (c : Candidate) (e : ℤ × Int), P c →
      P { c with currentEnergy := e.1, particleId := e.2 })
    (hTag : ∀ (c : Candidate) (t : String), P c → P (c.addTag t))
    (hDeact : ∀ c : Candidate, P c → P c.deactivate) :
    ∀ (ms : List Module) (c : Candidate), P c → P (applyEffects a p ms c).1 := by
  intro ms
  induction ms with
  | nil =>
      intro c hc
      simpa [applyEffects] using hc
  | cons m rest ih =>
      intro c hc
      by_cases hact : c.active
      · cases m with
        | propagation q =>
            simp only [applyEffects]
            rw [if_pos hact]
            exact ih _ (hAdv c hc)
        | interaction i =>
            simp only [applyEffects]
            rw [if_pos hact]
            by_cases hf : i.sampleLen p = a
            · rw [if_pos hf]
              cases he : i.effect c with
              | none => exact hDeact _ (hTag _ _ hc)
              | some e => exact ih _ (hEff c e hc)
            · rw [if_neg hf]
              exact ih c hc
        | minimumEnergy x =>
            simp only [applyEffects]
            rw [if_pos hact]
            by_cases hx : c.currentEnergy < x
            · rw [if_pos hx]
              exact ih _ (hDeact _ (hTag _ _ hc))
            · rw [if_neg hx]
              exact ih c hc
        | maximumTrajectory l =>
            simp only [applyEffects]
            rw [if_pos hact]
            by_cases hl : l < c.trajectoryLength
            · rw [if_pos hl]
              exact ih _ (hDeact _ (hTag _ _ hc))
            · rw [if_neg hl]
              exact ih c hc
        | observer ob =>
            simp only [applyEffects]
            rw [if_pos hact]
            by_cases hd : ob.detects p.currentPosition.x c.currentPosition.x
            · rw [if_pos hd]
              by_cases hm : ob.makeInactive
              · rw [if_pos hm]
                exact ih _ (hDeact _ (hTag _ _ hc))
              · rw [if_neg hm]
                exact ih _ (hTag _ _ hc)
            · rw [if_neg hd]
              exact ih c hc
      · have heq : applyEffects a p (m :: rest) c = (c, []) :=
          applyEffects_inactive a p _ c (by simpa using hact)
        rw [heq]
        exact hc

/-- Preservation through one pass, for predicates closed under the
primitive mutations at every non-negative accepted step. -/
theorem pass_inv (P : Candidate → Prop)
    (hAdv : ∀ (a : ℤ), 0 ≤ a → ∀ c, P c → P (advance a c))
    (hEff : ∀ (c : Candidate) (e : ℤ × Int), P c →
      P { c with currentEnergy := e.1, particleId := e.2 })
    (hTag : ∀ (c : Candidate) (t : String), P c → P (c.addTag t))
    (hDeact : ∀ c : Candidate, P c → P c.deactivate)
    (ms : List Module) (c c' : Candidate) (secs : List Candidate)
    (h : pass ms c = .ok (c', secs)) (hc : P c) : P c' := by
  by_cases hact : c.active
  · unfold pass at h
    rw [if_pos hact] at h
    cases hneg : negotiate c ms with
    | none => rw [hneg] at h; cases h
    | some a =>
        rw [hneg] at h
        simp only [Except.ok.injEq] at h
        have ha : 0 ≤ a := negotiate_nonneg c ms a hneg
        have hP := applyEffects_inv a c P (hAdv a ha) hEff hTag hDeact ms c hc
        rw [h] at hP
        exact hP
  · rw [pass_inactive ms c (by simpa using hact)] at h
    cases h

/-- Preservation through the fuel-bounded drive loop. -/
theorem drive_inv (P : Candidate → Prop)
    (hAdv : ∀ (a : ℤ), 0 ≤ a → ∀ c, P c → P (advance a c))
    (hEff : ∀ (c : Candidate) (e : ℤ × Int), P c →
      P { c with currentEnergy := e.1, particleId := e.2 })
    (hTag : ∀ (c : Candidate) (t : String), P c → P (c.addTag t))
    (hDeact : ∀ c : Candidate, P c → P c.deactivate) :
    ∀ (fuel : Nat) (ms : List Module) (c c' : Candidate)
      (secs : List Candidate),
      drive fuel ms c = .ok (c', secs) → P c → P c' := by
  intro fuel
  induction fuel with
  | zero =>
      intro ms c c' secs h hc
      simp only [drive, Except.ok.injEq, Prod.mk.injEq] at h
      rw [← h.1]
      exact hc
  | succ n ih =>
      intro ms c c' secs h hc
      by_cases hact : c.active
      · simp only [drive] at h
        rw [if_pos hact] at h
        cases hp : pass ms c with
        | error e => rw [hp] at h; cases h
        | ok r =>
            obtain ⟨c1, secs1⟩ := r
            rw [hp] at h
            have h1 : P c1 :=
              pass_inv P hAdv hEff hTag hDeact ms c c1 secs1 hp hc
            cases hd : drive n ms c1 with
            | error e => simp [hd] at h
            | ok r2 =>
                obtain ⟨c2, secs2⟩ := r2
                simp only [hd, Except.ok.injEq, Prod.mk.injEq] at h
                have h2 : P c2 := ih ms c1 c2 secs2 hd h1
                rw [← h.1]
                exact h2
      · simp only [drive] at h
        rw [if_neg hact] at h
        simp only [Except.ok.injEq, Prod.mk.injEq] at h
        rw [← h.1]
        exact hc

/-! ## Claim C2 -/

/-- C2: once a candidate's `active` flag is false it is terminal: a pass
over it is a hard failure (`inactiveCandidate`), the drive loop returns it
untouched without processing it, the scheduler worklist forwards it
unchanged (it never re-enters processing), and every module effect on it
is the identity, so no field is ever mutated again and no transition back
to active occurs. -/
theorem claim_C2_inactive_terminal (c : Candidate) (h : c.active = false) :
    (∀ ms, pass ms c = .error .inactiveCandidate) ∧
    (∀ fuel ms, drive fuel ms c = .ok (c, [])) ∧
    (∀ (w f : Nat) ms rest out, driveWork w f ms rest = .ok out →
      driveWork (w + 1) f ms (c :: rest) = .ok (c :: out)) ∧
    (∀ a p ms, applyEffects a p ms c = (c, [])) := by
  refine ⟨fun ms => pass_inactive ms c h,
    fun fuel ms => drive_inactive fuel ms c h,
    fun w f ms rest out hr => driveWork_cons_inactive w f ms c h rest out hr,
    fun a p ms => applyEffects_inactive a p ms c h⟩

/-- Witness for C2 at a concrete deactivated candidate. -/
theorem claim_C2_inactive_terminal_witness :
    pass (msObs 1) (Candidate.deactivate (mkCandidate1D (nucleusId 1 1) 200 100)) =
      .error .inactiveCandidate ∧
    drive 3 (msObs 1) (Candidate.deactivate (mkCandidate1D (nucleusId 1 1) 200 100)) =
      .ok (Candidate.deactivate (mkCandidate1D (nucleusId 1 1) 200 100), []) := by
  have h := claim_C2_inactive_terminal
    (Candidate.deactivate (mkCandidate1D (nucleusId 1 1) 200 100)) rfl
  exact ⟨h.1 (msObs 1), h.2.1 3 (msObs 1)⟩

/-! ## Claim C3 -/

/-- C3: the trajectory length is monotonically non-decreasing: every
negotiated step is non-negative (the propagation proposal is clamped), and
neither a single pass nor any fuel-bounded sequence of passes ever reduces
`trajectoryLength`. -/
theorem claim_C3_trajectory_monotone :
    (∀ (c : Candidate) (ms : List Module) (a : ℤ),
      negotiate c ms = some a → 0 ≤ a) ∧
    (∀ (ms : List Module) (c c' : Candidate) (secs : List Candidate),
      pass ms c = .ok (c', secs) →
      c.trajectoryLength ≤ c'.trajectoryLength) ∧
    (∀ (fuel : Nat) (ms : List Module) (c c' : Candidate)
      (secs : List Candidate),
      drive fuel ms c = .ok (c', secs) →
      c.trajectoryLength ≤ c'.trajectoryLength) := by
  refine ⟨negotiate_nonneg, ?_, ?_⟩
  · intro ms c c' secs h
    exact pass_inv (fun x => c.trajectoryLength ≤ x.trajectoryLength)
      (fun a ha x hx => by simp only [advance]; linarith)
      (fun x e hx => hx) (fun x t hx => hx) (fun x hx => hx)
      ms c c' secs h le_rfl
  · intro fuel ms c c' secs h
    exact drive_inv (fun x => c.trajectoryLength ≤ x.trajectoryLength)
      (fun a ha x hx => by simp only [advance]; linarith)
      (fun x e hx => hx) (fun x t hx => hx) (fun x hx => hx)
      fuel ms c c' secs h le_rfl

/-! ## Claim C10 -/

theorem inv1D_advance (x0 a : ℤ) (c : Candidate) (h : inv1D x0 c) :
    inv1D x0 (advance a c) := by
  obtain ⟨hd, hs, ht⟩ := h
  refine ⟨by simp [advance, hd], by simp [advance, hs], ?_⟩
  simp only [advance, hd, ht]
  ring

theorem inv1D_mk (pid : Int) (e x0 : ℤ) : inv1D x0 (mkCandidate1D pid e x0) := by
  refine ⟨rfl, rfl, ?_⟩
  simp [mkCandidate1D]

/-- C10: a candidate built with the 1D constructor (particle id, energy
and a positive x position, no explicit direction) has direction
`(-1, 0, 0)` at the source and keeps it throughout rectilinear transport
by any module list; its source position is immutable and at every point of
the drive (in particular at termination) the accumulated
`trajectoryLength` equals `sourcePosition.x - currentPosition.x`. -/
theorem claim_C10_direction_and_distance (pid : Int) (e x0 : ℤ)
    (fuel : Nat) (ms : List Module) (c' : Candidate) (secs : List Candidate)
    (h : drive fuel ms (mkCandidate1D pid e x0) = .ok (c', secs)) :
    (mkCandidate1D pid e x0).currentDirection = ⟨-1, 0, 0⟩ ∧
    c'.currentDirection = ⟨-1, 0, 0⟩ ∧
    c'.sourcePosition = ⟨x0, 0, 0⟩ ∧
    c'.trajectoryLength = x0 - c'.currentPosition.x := by
  have hinv : inv1D x0 c' := by
    refine drive_inv (inv1D x0) ?_ ?_ ?_ ?_ fuel ms _ c' secs h
      (inv1D_mk pid e x0)
    · intro a _ c hc
      exact inv1D_advance x0 a c hc
    · intro c ev hc
      exact ⟨hc.1, hc.2.1, hc.2.2⟩
    · intro c t hc
      exact ⟨hc.1, hc.2.1, hc.2.2⟩
    · intro c hc
      exact ⟨hc.1, hc.2.1, hc.2.2⟩
  exact ⟨rfl, hinv.1, hinv.2.1, hinv.2.2⟩

/-- Witness for C10: one rectilinear step of the notebook's 100 Mpc
proton. -/
theorem claim_C10_direction_and_distance_witness :
    (mkCandidate1D (nucleusId 1 1) 200 100).currentDirection = ⟨-1, 0, 0⟩ ∧
    (advance 10 (mkCandidate1D (nucleusId 1 1) 200 100)).currentDirection =
      ⟨-1, 0, 0⟩ ∧
    (advance 10 (mkCandidate1D (nucleusId 1 1) 200 100)).sourcePosition =
      ⟨100, 0, 0⟩ ∧
    (advance 10 (mkCandidate1D (nucleusId 1 1) 200 100)).trajectoryLength =
      100 - (advance 10 (mkCandidate1D (nucleusId 1 1) 200 100)).currentPosition.x :=
  claim_C10_direction_and_distance (nucleusId 1 1) 200 100 1
    [.propagation 10] _ [] (by rfl)

/-! ## Claim C9 -/

/-- C9: a freshly constructed Observer to which only a detection point is
added keeps the default policy `makeInactive = true`, and under that
policy every detected candidate is deactivated at the detection step. -/
theorem claim_C9_observer_default_policy :
    (Observer.new.addPoint 0).makeInactive = true ∧
    (∀ (ob : Observer) (a : ℤ) (cPre c : Candidate) (rest : List Module),
      ob.makeInactive = true → c.active = true →
      ob.detects cPre.currentPosition.x c.currentPosition.x = true →
      (applyEffects a cPre (Module.observer ob :: rest) c).1.active = false) := by
  refine ⟨rfl, ?_⟩
  intro ob a cPre c rest hmi hact hdet
  simp only [applyEffects]
  rw [if_pos hact, if_pos hdet, if_pos hmi]
  rw [applyEffects_inactive a cPre rest _ rfl]
  rfl

/-- Witness for C9: a candidate crossing x = 0 under the default observer
is deactivated. -/
theorem claim_C9_observer_default_policy_witness :
    (Observer.new.addPoint 0).makeInactive = true ∧
    (applyEffects 2 (mkCandidate1D (nucleusId 1 1) 200 1)
      [Module.observer obsAt0]
      (advance 2 (mkCandidate1D (nucleusId 1 1) 200 1))).1.active = false := by
  refine ⟨claim_C9_observer_default_policy.1, ?_⟩
  exact claim_C9_observer_default_policy.2 obsAt0 2
    (mkCandidate1D (nucleusId 1 1) 200 1)
    (advance 2 (mkCandidate1D (nucleusId 1 1) 200 1)) []
    rfl rfl (by decide)

/-! ## Claim C1 -/

theorem negotiateFrom_propFree (c : Candidate) :
    ∀ (ms : List Module), propagatorFree ms → ∀ (s : ℤ),
      negotiateFrom c (some s) ms = some ((interSamples c ms).foldl min s) := by
  intro ms
  induction ms with
  | nil =>
      intro _ s
      rfl
  | cons m rest ih =>
      intro hfree s
      have hrest : propagatorFree rest := by
        intro m' hm'
        exact hfree m' (List.mem_cons_of_mem m hm')
      cases m with
      | propagation p =>
          have := hfree (.propagation p) (List.mem_cons_self _ _)
          simp [Module.isPropagator] at this
      | interaction i =>
          simp only [negotiateFrom, Option.map_some']
          rw [ih hrest]
          rfl
      | minimumEnergy x => exact ih hrest s
      | maximumTrajectory l => exact ih hrest s
      | observer ob => exact ih hrest s

theorem applyEffects_propFree_trajLen (a : ℤ) (p : Candidate) :
    ∀ (ms : List Module), propagatorFree ms → ∀ (c : Candidate),
      (applyEffects a p ms c).1.trajectoryLength = c.trajectoryLength := by
  intro ms
  induction ms with
  | nil =>
      intro _ c
      rfl
  | cons m rest ih =>
      intro hfree c
      have hrest : propagatorFree rest := by
        intro m' hm'
        exact hfree m' (List.mem_cons_of_mem m hm')
      by_cases hact : c.active
      · cases m with
        | propagation q =>
            have := hfree (.propagation q) (List.mem_cons_self _ _)
            simp [Module.isPropagator] at this
        | interaction i =>
            simp only [applyEffects]
            rw [if_pos hact]
            by_cases hf : i.sampleLen p = a
            · rw [if_pos hf]
              cases he : i.effect c with
              | none => rfl
              | some e => exact ih hrest _
            · rw [if_neg hf]
              exact ih hrest c
        | minimumEnergy x =>
            simp only [applyEffects]
            rw [if_pos hact]
            by_cases hx : c.currentEnergy < x
            · rw [if_pos hx]
              exact ih hrest _
            · rw [if_neg hx]
              exact ih hrest c
        | maximumTrajectory l =>
            simp only [applyEffects]
            rw [if_pos hact]
            by_cases hl : l < c.trajectoryLength
            · rw [if_pos hl]
              exact ih hrest _
            · rw [if_neg hl]
              exact ih hrest c
        | observer ob =>
            simp only [applyEffects]
            rw [if_pos hact]
            by_cases hd : ob.detects p.currentPosition.x c.currentPosition.x
            · rw [if_pos hd]
              by_cases hm : ob.makeInactive
              · rw [if_pos hm]
                exact ih hrest _
              · rw [if_neg hm]
                exact ih hrest _
            · rw [if_neg hd]
              exact ih hrest c
      · rw [applyEffects_inactive a p _ c (by simpa using hact)]

theorem applyEffects_firing (a : ℤ) (p : Candidate) :
    ∀ (ms : List Module) (c : Candidate),
      applyEffects a p ms c = applyEffects a p (firingModules a p ms) c := by
  intro ms
  induction ms with
  | nil =>
      intro c
      rfl
  | cons m rest ih =>
      intro c
      by_cases hact : c.active
      · cases m with
        | propagation q =>
            have hfm : firingModules a p (Module.propagation q :: rest) =
                Module.propagation q :: firingModules a p rest := by
              simp [firingModules]
            rw [hfm]
            simp only [applyEffects]
            rw [if_pos hact, if_pos hact]
            exact ih _
        | interaction i =>
            by_cases hf : i.sampleLen p = a
            · have hfm : firingModules a p (Module.interaction i :: rest) =
                  Module.interaction i :: firingModules a p rest := by
                simp [firingModules, hf]
              rw [hfm]
              simp only [applyEffects]
              rw [if_pos hact, if_pos hact, if_pos hf, if_pos hf]
              cases he : i.effect c with
              | none => rfl
              | some e => simp only [ih]
            · have hfm : firingModules a p (Module.interaction i :: rest) =
                  firingModules a p rest := by
                simp [firingModules, hf]
              rw [hfm]
              simp only [applyEffects]
              rw [if_pos hact, if_neg hf]
              exact ih c
        | minimumEnergy x =>
            have hfm : firingModules a p (Module.minimumEnergy x :: rest) =
                Module.minimumEnergy x :: firingModules a p rest := by
              simp [firingModules]
            rw [hfm]
            simp only [applyEffects]
            rw [if_pos hact, if_pos hact]
            exact ih _
        | maximumTrajectory l =>
            have hfm : firingModules a p (Module.maximumTrajectory l :: rest) =
                Module.maximumTrajectory l :: firingModules a p rest := by
              simp [firingModules]
            rw [hfm]
            simp only [applyEffects]
            rw [if_pos hact, if_pos hact]
            exact ih _
        | observer ob =>
            have hfm : firingModules a p (Module.observer ob :: rest) =
                Module.observer ob :: firingModules a p rest := by
              simp [firingModules]
            rw [hfm]
            simp only [applyEffects]
            rw [if_pos hact, if_pos hact]
            exact ih _
      · have h1 := applyEffects_inactive a p (m :: rest) c (by simpa using hact)
        have h2 := applyEffects_inactive a p
          (firingModules a p (m :: rest)) c (by simpa using hact)
        rw [h1, h2]

/-- C1: step-size negotiation.  In the recommended configuration order
(propagator first, tail propagator-free) the accepted step is the minimum
of the propagator's clamped proposal and every interaction's sampled
length; a full successful pass advances the trajectory by exactly that
accepted step (exactly one step per pass); and the effect phase is
insensitive to interactions whose sampled length differs from the accepted
step — only the modules whose sample equals the accepted step act. -/
theorem claim_C1_step_negotiation :
    (∀ (c : Candidate) (p : ℤ) (rest : List Module), propagatorFree rest →
      negotiate c (.propagation p :: rest) =
        some ((interSamples c rest).foldl min (max 0 p))) ∧
    (∀ (c : Candidate) (p : ℤ) (rest : List Module) (a : ℤ)
      (c' : Candidate) (secs : List Candidate), propagatorFree rest →
      negotiate c (.propagation p :: rest) = some a →
      pass (.propagation p :: rest) c = .ok (c', secs) →
      c'.trajectoryLength = c.trajectoryLength + a) ∧
    (∀ (a : ℤ) (cPre : Candidate) (ms : List Module) (c : Candidate),
      applyEffects a cPre ms c = applyEffects a cPre (firingModules a cPre ms) c) := by
  refine ⟨?_, ?_, fun a cPre ms c => applyEffects_firing a cPre ms c⟩
  · intro c p rest hfree
    exact negotiateFrom_propFree c rest hfree (max 0 p)
  · intro c p rest a c' secs hfree hneg hpass
    by_cases hact : c.active
    · unfold pass at hpass
      rw [if_pos hact, hneg] at hpass
      simp only [Except.ok.injEq] at hpass
      have hfst := congrArg Prod.fst hpass
      simp only [applyEffects] at hfst
      rw [if_pos hact] at hfst
      have htl := applyEffects_propFree_trajLen a c rest hfree (advance a c)
      rw [hfst] at htl
      simp only [advance] at htl
      exact htl
    · rw [pass_inactive _ c (by simpa using hact)] at hpass
      cases hpass

/-- Witness for C1 at a concrete pass: propagator step 10, one interaction
sampling length 3, so the accepted step is 3 and the interaction fires. -/
theorem claim_C1_step_negotiation_witness :
    negotiate (mkCandidate1D (nucleusId 1 1) 200 100)
      [.propagation 10, .interaction (lossInteraction 3 1), .minimumEnergy 1] =
      some ((interSamples (mkCandidate1D (nucleusId 1 1) 200 100)
        [.interaction (lossInteraction 3 1), .minimumEnergy 1]).foldl min
          (max 0 10)) ∧
    ({ advance 3 (mkCandidate1D (nucleusId 1 1) 200 100) with
        currentEnergy := 199 } : Candidate).trajectoryLength =
      (mkCandidate1D (nucleusId 1 1) 200 100).trajectoryLength + 3 ∧
    applyEffects 3 (mkCandidate1D (nucleusId 1 1) 200 100)
      [.interaction (lossInteraction 5 1)]
      (mkCandidate1D (nucleusId 1 1) 200 100) =
    applyEffects 3 (mkCandidate1D (nucleusId 1 1) 200 100)
      (firingModules 3 (mkCandidate1D (nucleusId 1 1) 200 100)
        [.interaction (lossInteraction 5 1)])
      (mkCandidate1D (nucleusId 1 1) 200 100) := by
  refine ⟨claim_C1_step_negotiation.1 _ 10 _
    (by intro m hm; fin_cases hm <;> rfl), ?_, ?_⟩
  · exact claim_C1_step_negotiation.2.1
      (mkCandidate1D (nucleusId 1 1) 200 100) 10
      [.interaction (lossInteraction 3 1), .minimumEnergy 1] 3 _ []
      (by intro m hm; fin_cases hm <;> rfl) (by decide) (by rfl)
  · exact claim_C1_step_negotiation.2.2 3 _ _ _

/-- Witness for C3 at a concrete pass of the notebook's 100 Mpc proton. -/
theorem claim_C3_trajectory_monotone_witness :
    (0 : ℤ) ≤ 1 ∧
    (mkCandidate1D (nucleusId 1 1) 200 100).trajectoryLength ≤
      (advance 1 (mkCandidate1D (nucleusId 1 1) 200 100)).trajectoryLength := by
  refine ⟨claim_C3_trajectory_monotone.1 (mkCandidate1D (nucleusId 1 1) 200 100)
      (msObs 1) 1 (by decide), ?_⟩
  exact claim_C3_trajectory_monotone.2.1 [.propagation 1]
    (mkCandidate1D (nucleusId 1 1) 200 100)
    (advance 1 (mkCandidate1D (nucleusId 1 1) 200 100)) [] (by rfl)

/-! ## Claim C4 -/

theorem negotiate_msObs (s : ℤ) (hs : 0 < s) (c : Candidate) :
    negotiate c (msObs s) = some s := by
  show some (max 0 s) = some s
  rw [max_eq_right hs.le]

theorem pass_msObs_detect (s : ℤ) (hs : 0 < s) (c : Candidate)
    (hact : c.active = true) (hdir : c.currentDirection = ⟨-1, 0, 0⟩)
    (h1 : 0 < c.currentPosition.x) (h2 : c.currentPosition.x - s ≤ 0) :
    pass (msObs s) c =
      .ok (((advance s c).addTag detectedTag).deactivate, []) := by
  have hdet : obsAt0.detects c.currentPosition.x
      (advance s c).currentPosition.x = true := by
    simp only [Observer.detects, obsAt0, Observer.new, Observer.addPoint,
      advance, hdir, List.nil_append, List.any_cons, List.any_nil,
      Bool.or_false, Bool.and_eq_true, decide_eq_true_eq]
    constructor
    · exact h1
    · linarith
  unfold pass
  rw [if_pos hact, negotiate_msObs s hs c]
  show Except.ok (applyEffects s c (msObs s) c) = _
  have key : applyEffects s c (msObs s) c =
      (((advance s c).addTag detectedTag).deactivate, []) := by
    show applyEffects s c [Module.propagation s, Module.observer obsAt0] c = _
    simp only [applyEffects]
    rw [if_pos hact]
    rw [if_pos (show (advance s c).active = true from hact)]
    rw [if_pos hdet]
    rfl
  rw [key]

theorem pass_msObs_miss (s : ℤ) (hs : 0 < s) (c : Candidate)
    (hact : c.active = true) (hdir : c.currentDirection = ⟨-1, 0, 0⟩)
    (h2 : 0 < c.currentPosition.x - s) :
    pass (msObs s) c = .ok (advance s c, []) := by
  have hdet : ¬(obsAt0.detects c.currentPosition.x
      (advance s c).currentPosition.x = true) := by
    simp only [Observer.detects, obsAt0, Observer.new, Observer.addPoint,
      advance, hdir, List.nil_append, List.any_cons, List.any_nil,
      Bool.or_false, Bool.and_eq_true, decide_eq_true_eq, not_and, not_le]
    intro _
    linarith
  unfold pass
  rw [if_pos hact, negotiate_msObs s hs c]
  show Except.ok (applyEffects s c (msObs s) c) = _
  have key : applyEffects s c (msObs s) c = (advance s c, []) := by
    show applyEffects s c [Module.propagation s, Module.observer obsAt0] c = _
    simp only [applyEffects]
    rw [if_pos hact]
    rw [if_pos (show (advance s c).active = true from hact)]
    rw [if_neg hdet]
  rw [key]

/-- One step of the drive loop on an active candidate, phrased as a plain
equation. -/
theorem drive_succ_ok (f : Nat) (ms : List Module) (c c2 c3 : Candidate)
    (secs secs3 : List Candidate) (hact : c.active = true)
    (hp : pass ms c = .ok (c2, secs)) (hd : drive f ms c2 = .ok (c3, secs3)) :
    drive (f + 1) ms c = .ok (c3, secs ++ secs3) := by
  simp only [drive]
  rw [if_pos hact]
  simp only [hp, hd]

theorem drive_msObs (s : ℤ) (hs : 0 < s) :
    ∀ (n : ℕ) (c : Candidate) (fuel : ℕ), 1 ≤ n → c.active = true →
      c.currentDirection = ⟨-1, 0, 0⟩ → c.tags = [] →
      ((n : ℤ) - 1) * s < c.currentPosition.x →
      c.currentPosition.x ≤ (n : ℤ) * s → n ≤ fuel →
      ∃ c', drive fuel (msObs s) c = .ok (c', []) ∧
        c'.active = false ∧ c'.tags = [detectedTag] ∧
        c'.currentPosition.x = c.currentPosition.x - (n : ℤ) * s ∧
        c'.trajectoryLength = c.trajectoryLength + (n : ℤ) * s := by
  intro n
  induction n with
  | zero => intro c fuel hn; omega
  | succ k ih =>
      intro c fuel hn hact hdir htags hlow hhigh hfuel
      obtain ⟨f, rfl⟩ : ∃ f, fuel = f + 1 := ⟨fuel - 1, by omega⟩
      cases k with
      | zero =>
          have h1 : 0 < c.currentPosition.x := by
            push_cast at hlow
            linarith
          have h2 : c.currentPosition.x - s ≤ 0 := by
            push_cast at hhigh
            linarith
          have hpass := pass_msObs_detect s hs c hact hdir h1 h2
          have hstep := drive_succ_ok f (msObs s) c _ _ [] [] hact hpass
            (drive_inactive f (msObs s)
              (((advance s c).addTag detectedTag).deactivate) rfl)
          refine ⟨((advance s c).addTag detectedTag).deactivate,
            hstep, rfl, ?_, ?_, ?_⟩
          · simp [Candidate.addTag, Candidate.deactivate, advance, htags]
          · simp only [Candidate.addTag, Candidate.deactivate, advance, hdir]
            push_cast
            ring
          · simp only [Candidate.addTag, Candidate.deactivate, advance]
            push_cast
            ring
      | succ j =>
          have hks : ((j : ℤ) + 1) * s < c.currentPosition.x := by
            push_cast at hlow
            linarith
          have hjs : (0 : ℤ) ≤ (j : ℤ) * s :=
            mul_nonneg (Int.ofNat_nonneg j) hs.le
          have h2 : 0 < c.currentPosition.x - s := by
            have hexp : ((j : ℤ) + 1) * s = (j : ℤ) * s + s := by ring
            rw [hexp] at hks
            linarith
          have hpass := pass_msObs_miss s hs c hact hdir h2
          have hadv_dir : (advance s c).currentDirection = ⟨-1, 0, 0⟩ := by
            simp [advance, hdir]
          have hadv_x : (advance s c).currentPosition.x =
              c.currentPosition.x - s := by
            simp only [advance, hdir]
            ring
          have hlow2 : (((j + 1 : ℕ) : ℤ) - 1) * s <
              (advance s c).currentPosition.x := by
            rw [hadv_x]
            push_cast at hlow ⊢
            linarith
          have hhigh2 : (advance s c).currentPosition.x ≤
              ((j + 1 : ℕ) : ℤ) * s := by
            rw [hadv_x]
            push_cast at hhigh ⊢
            linarith
          obtain ⟨c', hdrive, hcact, hctags, hcx, hctl⟩ :=
            ih (advance s c) f (by omega) hact hadv_dir htags hlow2 hhigh2
              (by omega)
          refine ⟨c', ?_, hcact, hctags, ?_, ?_⟩
          · exact drive_succ_ok f (msObs s) c _ _ [] [] hact hpass hdrive
          · rw [hcx, hadv_x]
            push_cast
            ring
          · rw [hctl]
            have hadv_tl : (advance s c).trajectoryLength =
                c.trajectoryLength + s := rfl
            rw [hadv_tl]
            push_cast
            ring

/-- C4: with an Observer holding a single detection point at x = 0 and
`makeInactive = true`, every candidate starting at a positive position and
moving toward 0 is detected exactly once, at the pass in which its
position crosses 0 (evaluated on the post-step state), is deactivated
there, and stays inactive and untouched for all subsequent steps. -/
theorem claim_C4_observer_detects_once (pid : Int) (e x0 s : ℤ) (n fuel : ℕ)
    (hs : 0 < s) (hn : 1 ≤ n)
    (hlow : ((n : ℤ) - 1) * s < x0) (hhigh : x0 ≤ (n : ℤ) * s)
    (hfuel : n ≤ fuel) :
    ∃ c', drive fuel (msObs s) (mkCandidate1D pid e x0) = .ok (c', []) ∧
      c'.active = false ∧
      List.count detectedTag c'.tags = 1 ∧
      c'.currentPosition.x = x0 - (n : ℤ) * s ∧
      c'.currentPosition.x ≤ 0 ∧
      0 < x0 - ((n : ℤ) - 1) * s ∧
      (∀ (g : ℕ) (ms2 : List Module), drive g ms2 c' = .ok (c', [])) := by
  obtain ⟨c', hdrive, hcact, hctags, hcx, _⟩ :=
    drive_msObs s hs n (mkCandidate1D pid e x0) fuel hn rfl rfl rfl
      (by simpa [mkCandidate1D] using hlow)
      (by simpa [mkCandidate1D] using hhigh) hfuel
  refine ⟨c', hdrive, hcact, ?_, ?_, ?_, by linarith,
    fun g ms2 => drive_inactive g ms2 c' hcact⟩
  · rw [hctags]
    simp
  · rw [hcx]
    simp [mkCandidate1D]
  · rw [hcx]
    simp only [mkCandidate1D]
    linarith

/-- Witness for C4: a candidate at x = 7 with step 3 is detected on the
third pass. -/
theorem claim_C4_observer_detects_once_witness :
    (0 : ℤ) < 3 ∧ (1 : ℕ) ≤ 3 ∧ (((3 : ℕ) : ℤ) - 1) * 3 < 7 ∧
    (7 : ℤ) ≤ ((3 : ℕ) : ℤ) * 3 ∧
    (∃ c', drive 3 (msObs 3) (mkCandidate1D (nucleusId 1 1) 200 7) =
        .ok (c', []) ∧
      c'.active = false ∧
      List.count detectedTag c'.tags = 1 ∧
      c'.currentPosition.x = 7 - ((3 : ℕ) : ℤ) * 3 ∧
      c'.currentPosition.x ≤ 0 ∧
      0 < 7 - (((3 : ℕ) : ℤ) - 1) * 3 ∧
      (∀ (g : ℕ) (ms2 : List Module), drive g ms2 c' = .ok (c', []))) := by
  refine ⟨by decide, by decide, by decide, by decide, ?_⟩
  exact claim_C4_observer_detects_once (nucleusId 1 1) 200 7 3 3 3
    (by decide) (by decide) (by decide) (by decide) (by decide)

/-! ## Claim C5 -/

theorem negotiate_msMinE (s l d x : ℤ) (hl : 0 < l) (hls : l ≤ s)
    (c : Candidate) : negotiate c (msMinE s l d x) = some l := by
  show some (min (max 0 s) (max 0 l)) = some l
  rw [max_eq_right (hl.le.trans hls), max_eq_right hl.le, min_eq_right hls]

theorem applyEffects_cons_prop (a : ℤ) (p : Candidate) (q : ℤ)
    (rest : List Module) (c : Candidate) (hact : c.active = true) :
    applyEffects a p (Module.propagation q :: rest) c =
      applyEffects a p rest (advance a c) := by
  simp only [applyEffects]
  rw [if_pos hact]

theorem applyEffects_cons_inter_fire (a : ℤ) (p : Candidate)
    (i : Interaction) (rest : List Module) (c : Candidate)
    (hact : c.active = true) (hs : i.sampleLen p = a) (e : ℤ × Int)
    (he : i.effect c = some e) (c1 : Candidate)
    (hc1 : { c with currentEnergy := e.1, particleId := e.2 } = c1) :
    applyEffects a p (Module.interaction i :: rest) c =
      ((applyEffects a p rest c1).1,
        (i.secondaries p).map (mkSecondary c1) ++
        (applyEffects a p rest c1).2) := by
  subst hc1
  simp only [applyEffects]
  rw [if_pos hact, if_pos hs, he]

theorem applyEffects_cons_inter_fail (a : ℤ) (p : Candidate)
    (i : Interaction) (rest : List Module) (c : Candidate)
    (hact : c.active = true) (hs : i.sampleLen p = a)
    (he : i.effect c = none) :
    applyEffects a p (Module.interaction i :: rest) c =
      ((c.addTag failedTag).deactivate, []) := by
  simp only [applyEffects]
  rw [if_pos hact, if_pos hs, he]

theorem applyEffects_cons_inter_skip (a : ℤ) (p : Candidate)
    (i : Interaction) (rest : List Module) (c : Candidate)
    (hact : c.active = true) (hs : i.sampleLen p ≠ a) :
    applyEffects a p (Module.interaction i :: rest) c =
      applyEffects a p rest c := by
  simp only [applyEffects]
  rw [if_pos hact, if_neg hs]

theorem applyEffects_cons_minE_live (a : ℤ) (p : Candidate) (x : ℤ)
    (rest : List Module) (c : Candidate) (hact : c.active = true)
    (hx : ¬c.currentEnergy < x) :
    applyEffects a p (Module.minimumEnergy x :: rest) c =
      applyEffects a p rest c := by
  simp only [applyEffects]
  rw [if_pos hact, if_neg hx]

theorem applyEffects_cons_minE_kill (a : ℤ) (p : Candidate) (x : ℤ)
    (rest : List Module) (c : Candidate) (hact : c.active = true)
    (hx : c.currentEnergy < x) :
    applyEffects a p (Module.minimumEnergy x :: rest) c =
      applyEffects a p rest ((c.addTag belowThresholdTag).deactivate) := by
  simp only [applyEffects]
  rw [if_pos hact, if_pos hx]

theorem applyEffects_cons_maxT_live (a : ℤ) (p : Candidate) (lmax : ℤ)
    (rest : List Module) (c : Candidate) (hact : c.active = true)
    (hl : ¬lmax < c.trajectoryLength) :
    applyEffects a p (Module.maximumTrajectory lmax :: rest) c =
      applyEffects a p rest c := by
  simp only [applyEffects]
  rw [if_pos hact, if_neg hl]

theorem applyEffects_cons_maxT_kill (a : ℤ) (p : Candidate) (lmax : ℤ)
    (rest : List Module) (c : Candidate) (hact : c.active = true)
    (hl : lmax < c.trajectoryLength) :
    applyEffects a p (Module.maximumTrajectory lmax :: rest) c =
      applyEffects a p rest ((c.addTag exhaustedTag).deactivate) := by
  simp only [applyEffects]
  rw [if_pos hact, if_pos hl]

theorem pass_msMinE_live (s l d x : ℤ) (hl : 0 < l) (hls : l ≤ s)
    (c : Candidate) (hact : c.active = true)
    (hE : ¬c.currentEnergy - d < x) :
    pass (msMinE s l d x) c =
      .ok ({ advance l c with currentEnergy := c.currentEnergy - d }, []) := by
  unfold pass
  rw [if_pos hact, negotiate_msMinE s l d x hl hls c]
  show Except.ok (applyEffects l c (msMinE s l d x) c) = _
  have key : applyEffects l c (msMinE s l d x) c =
      ({ advance l c with currentEnergy := c.currentEnergy - d }, []) := by
    show applyEffects l c [Module.propagation s,
      Module.interaction (lossInteraction l d), Module.minimumEnergy x] c = _
    rw [applyEffects_cons_prop l c s _ c hact]
    rw [applyEffects_cons_inter_fire l c (lossInteraction l d) _ (advance l c)
      hact rfl (c.currentEnergy - d, c.particleId) rfl
      ({ advance l c with currentEnergy := c.currentEnergy - d }) rfl]
    rw [applyEffects_cons_minE_live l c x []
      ({ advance l c with currentEnergy := c.currentEnergy - d }) hact
      (show ¬({ advance l c with currentEnergy :=
        c.currentEnergy - d } : Candidate).currentEnergy < x from hE)]
    rfl
  rw [key]

theorem pass_msMinE_kill (s l d x : ℤ) (hl : 0 < l) (hls : l ≤ s)
    (c : Candidate) (hact : c.active = true)
    (hE : c.currentEnergy - d < x) :
    pass (msMinE s l d x) c =
      .ok ((({ advance l c with currentEnergy := c.currentEnergy - d
        } : Candidate).addTag belowThresholdTag).deactivate, []) := by
  unfold pass
  rw [if_pos hact, negotiate_msMinE s l d x hl hls c]
  show Except.ok (applyEffects l c (msMinE s l d x) c) = _
  have key : applyEffects l c (msMinE s l d x) c =
      ((({ advance l c with currentEnergy := c.currentEnergy - d
        } : Candidate).addTag belowThresholdTag).deactivate, []) := by
    show applyEffects l c [Module.propagation s,
      Module.interaction (lossInteraction l d), Module.minimumEnergy x] c = _
    rw [applyEffects_cons_prop l c s _ c hact]
    rw [applyEffects_cons_inter_fire l c (lossInteraction l d) _ (advance l c)
      hact rfl (c.currentEnergy - d, c.particleId) rfl
      ({ advance l c with currentEnergy := c.currentEnergy - d }) rfl]
    rw [applyEffects_cons_minE_kill l c x []
      ({ advance l c with currentEnergy := c.currentEnergy - d }) hact
      (show ({ advance l c with currentEnergy :=
        c.currentEnergy - d } : Candidate).currentEnergy < x from hE)]
    rfl
  rw [key]

theorem drive_msMinE (s l d x : ℤ) (hl : 0 < l) (hls : l ≤ s)
    (hd : 0 < d) :
    ∀ (n : ℕ) (c : Candidate) (fuel : ℕ), 1 ≤ n → c.active = true →
      c.tags = [] →
      x ≤ c.currentEnergy - ((n : ℤ) - 1) * d →
      c.currentEnergy - (n : ℤ) * d < x →
      n ≤ fuel →
      ∃ c', drive fuel (msMinE s l d x) c = .ok (c', []) ∧
        c'.active = false ∧ c'.tags = [belowThresholdTag] ∧
        c'.currentEnergy = c.currentEnergy - (n : ℤ) * d ∧
        c'.trajectoryLength = c.trajectoryLength + (n : ℤ) * l := by
  intro n
  induction n with
  | zero => intro c fuel hn; omega
  | succ k ih =>
      intro c fuel hn hact htags hup hdown hfuel
      obtain ⟨f, rfl⟩ : ∃ f, fuel = f + 1 := ⟨fuel - 1, by omega⟩
      cases k with
      | zero =>
          have hE : c.currentEnergy - d < x := by
            push_cast at hdown
            linarith
          have hpass := pass_msMinE_kill s l d x hl hls c hact hE
          have hstep := drive_succ_ok f (msMinE s l d x) c _ _ [] [] hact hpass
            (drive_inactive f (msMinE s l d x)
              ((({ advance l c with currentEnergy := c.currentEnergy - d
                } : Candidate).addTag belowThresholdTag).deactivate) rfl)
          refine ⟨_, hstep, rfl, ?_, ?_, ?_⟩
          · simp [Candidate.addTag, Candidate.deactivate, advance, htags]
          · simp only [Candidate.addTag, Candidate.deactivate, advance]
            push_cast
            ring
          · simp only [Candidate.addTag, Candidate.deactivate, advance]
            push_cast
            ring
      | succ j =>
          have hjd : (0 : ℤ) ≤ (j : ℤ) * d :=
            mul_nonneg (Int.ofNat_nonneg j) hd.le
          have hexp : ((j : ℤ) + 1) * d = (j : ℤ) * d + d := by ring
          have hE : ¬c.currentEnergy - d < x := by
            push_cast at hup
            intro hcon
            have h1 : x ≤ c.currentEnergy - ((j : ℤ) + 1) * d := by linarith
            rw [hexp] at h1
            linarith
          have hpass := pass_msMinE_live s l d x hl hls c hact hE
          have hc1E : ({ advance l c with currentEnergy := c.currentEnergy - d
              } : Candidate).currentEnergy = c.currentEnergy - d := rfl
          have hc1tl : ({ advance l c with currentEnergy := c.currentEnergy - d
              } : Candidate).trajectoryLength = c.trajectoryLength + l := rfl
          have hup2 : x ≤ ({ advance l c with currentEnergy :=
              c.currentEnergy - d } : Candidate).currentEnergy -
              (((j + 1 : ℕ) : ℤ) - 1) * d := by
            rw [hc1E]
            push_cast at hup ⊢
            linarith
          have hdown2 : ({ advance l c with currentEnergy :=
              c.currentEnergy - d } : Candidate).currentEnergy -
              ((j + 1 : ℕ) : ℤ) * d < x := by
            rw [hc1E]
            push_cast at hdown ⊢
            linarith
          obtain ⟨c', hdrive, hcact, hctags, hcE, hctl⟩ :=
            ih ({ advance l c with currentEnergy := c.currentEnergy - d })
              f (by omega) hact htags hup2 hdown2 (by omega)
          refine ⟨c', ?_, hcact, hctags, ?_, ?_⟩
          · exact drive_succ_ok f (msMinE s l d x) c _ _ [] [] hact hpass hdrive
          · rw [hcE, hc1E]
            push_cast
            ring
          · rw [hctl, hc1tl]
            push_cast
            ring

/-- C5: in a run whose module list contains a MinimumEnergy break
condition with threshold `x`, a candidate whose energy decreases by `d`
per pass is deactivated at the first pass taking its energy below `x`
(a bounded number of passes, here `n`), and its terminal state is
`active = false` with the cause tag "BelowThreshold" and energy below the
threshold. -/
theorem claim_C5_minimum_energy_terminates (pid : Int)
    (e0 x0 s l d x : ℤ) (n fuel : ℕ)
    (hl : 0 < l) (hls : l ≤ s) (hn : 1 ≤ n)
    (hup : x ≤ e0 - ((n : ℤ) - 1) * d)
    (hdown : e0 - (n : ℤ) * d < x)
    (hfuel : n ≤ fuel) :
    ∃ c', drive fuel (msMinE s l d x) (mkCandidate1D pid e0 x0) =
        .ok (c', []) ∧
      c'.active = false ∧
      c'.tags = [belowThresholdTag] ∧
      c'.currentEnergy = e0 - (n : ℤ) * d ∧
      c'.currentEnergy < x := by
  have hd : 0 < d := by
    have hexp : ((n : ℤ) - 1) * d = (n : ℤ) * d - d := by ring
    rw [hexp] at hup
    linarith
  obtain ⟨c', hdrive, hcact, hctags, hcE, _⟩ :=
    drive_msMinE s l d x hl hls hd n (mkCandidate1D pid e0 x0) fuel hn rfl rfl
      (by simpa [mkCandidate1D] using hup)
      (by simpa [mkCandidate1D] using hdown) hfuel
  refine ⟨c', hdrive, hcact, hctags, ?_, ?_⟩
  · rw [hcE]
    rfl
  · rw [hcE]
    simpa [mkCandidate1D] using hdown

/-- Witness for C5: the notebook's 200 EeV proton with a 150 EeV per-pass
loss and a 1 EeV threshold is stopped on the second pass. -/
theorem claim_C5_minimum_energy_terminates_witness :
    (0 : ℤ) < 1 ∧ (1 : ℤ) ≤ 1 ∧ (1 : ℕ) ≤ 2 ∧
    (1 : ℤ) ≤ 200 - (((2 : ℕ) : ℤ) - 1) * 150 ∧
    (200 : ℤ) - ((2 : ℕ) : ℤ) * 150 < 1 ∧
    (∃ c', drive 2 (msMinE 1 1 150 1) (mkCandidate1D (nucleusId 1 1) 200 100) =
        .ok (c', []) ∧
      c'.active = false ∧
      c'.tags = [belowThresholdTag] ∧
      c'.currentEnergy = 200 - ((2 : ℕ) : ℤ) * 150 ∧
      c'.currentEnergy < 1) := by
  refine ⟨by decide, by decide, by decide, by decide, by decide, ?_⟩
  exact claim_C5_minimum_energy_terminates (nucleusId 1 1) 200 100 1 1 150 1
    2 2 (by decide) (by decide) (by decide) (by decide) (by decide) (by decide)

/-! ## Claim C7 -/

theorem negotiate_msSec_fire (c : Candidate) (hpid : c.particleId = 1) :
    negotiate c msSec = some 1 := by
  show some (min (max 0 1) (max 0 (spawnInteraction.sampleLen c))) = some 1
  simp only [spawnInteraction]
  rw [if_pos hpid]
  decide

theorem negotiate_msSec_noFire (c : Candidate) (hpid : c.particleId ≠ 1) :
    negotiate c msSec = some 1 := by
  show some (min (max 0 1) (max 0 (spawnInteraction.sampleLen c))) = some 1
  simp only [spawnInteraction]
  rw [if_neg hpid]
  decide

theorem pass_msSec_fire (c : Candidate) (hpid : c.particleId = 1)
    (hact : c.active = true) (htl : ¬(2 : ℤ) < c.trajectoryLength + 1) :
    pass msSec c =
      .ok ({ advance 1 c with particleId := 0 },
        [mkSecondary ({ advance 1 c with particleId := 0 })
          (c.currentEnergy, 2)]) := by
  unfold pass
  rw [if_pos hact, negotiate_msSec_fire c hpid]
  show Except.ok (applyEffects 1 c msSec c) = _
  have hs : spawnInteraction.sampleLen c = 1 := by
    simp only [spawnInteraction]
    rw [if_pos hpid]
  have he : spawnInteraction.effect (advance 1 c) =
      some (c.currentEnergy, 0) := by
    simp only [spawnInteraction]
    rw [if_pos (show (advance 1 c).particleId = 1 from hpid)]
    rfl
  have hsec : spawnInteraction.secondaries c = [(c.currentEnergy, 2)] := by
    simp only [spawnInteraction]
    rw [if_pos hpid]
  have key : applyEffects 1 c msSec c =
      ({ advance 1 c with particleId := 0 },
        [mkSecondary ({ advance 1 c with particleId := 0 })
          (c.currentEnergy, 2)]) := by
    show applyEffects 1 c [Module.propagation 1,
      Module.interaction spawnInteraction, Module.maximumTrajectory 2] c = _
    rw [applyEffects_cons_prop 1 c 1 _ c hact]
    rw [applyEffects_cons_inter_fire 1 c spawnInteraction _ (advance 1 c)
      hact hs (c.currentEnergy, 0) he
      ({ advance 1 c with particleId := 0 }) rfl]
    rw [applyEffects_cons_maxT_live 1 c 2 []
      ({ advance 1 c with particleId := 0 }) hact
      (show ¬(2 : ℤ) < ({ advance 1 c with particleId := 0
        } : Candidate).trajectoryLength from htl)]
    rw [hsec]
    rfl
  rw [key]

theorem pass_msSec_noFire_live (c : Candidate) (hpid : c.particleId ≠ 1)
    (hact : c.active = true) (htl : ¬(2 : ℤ) < c.trajectoryLength + 1) :
    pass msSec c = .ok (advance 1 c, []) := by
  unfold pass
  rw [if_pos hact, negotiate_msSec_noFire c hpid]
  show Except.ok (applyEffects 1 c msSec c) = _
  have hs : spawnInteraction.sampleLen c ≠ 1 := by
    simp only [spawnInteraction]
    rw [if_neg hpid]
    decide
  have key : applyEffects 1 c msSec c = (advance 1 c, []) := by
    show applyEffects 1 c [Module.propagation 1,
      Module.interaction spawnInteraction, Module.maximumTrajectory 2] c = _
    rw [applyEffects_cons_prop 1 c 1 _ c hact]
    rw [applyEffects_cons_inter_skip 1 c spawnInteraction _ (advance 1 c)
      hact hs]
    rw [applyEffects_cons_maxT_live 1 c 2 [] (advance 1 c) hact
      (show ¬(2 : ℤ) < (advance 1 c).trajectoryLength from htl)]
    rfl
  rw [key]

theorem pass_msSec_noFire_kill (c : Candidate) (hpid : c.particleId ≠ 1)
    (hact : c.active = true) (htl : (2 : ℤ) < c.trajectoryLength + 1) :
    pass msSec c = .ok (((advance 1 c).addTag exhaustedTag).deactivate, []) := by
  unfold pass
  rw [if_pos hact, negotiate_msSec_noFire c hpid]
  show Except.ok (applyEffects 1 c msSec c) = _
  have hs : spawnInteraction.sampleLen c ≠ 1 := by
    simp only [spawnInteraction]
    rw [if_neg hpid]
    decide
  have key : applyEffects 1 c msSec c =
      (((advance 1 c).addTag exhaustedTag).deactivate, []) := by
    show applyEffects 1 c [Module.propagation 1,
      Module.interaction spawnInteraction, Module.maximumTrajectory 2] c = _
    rw [applyEffects_cons_prop 1 c 1 _ c hact]
    rw [applyEffects_cons_inter_skip 1 c spawnInteraction _ (advance 1 c)
      hact hs]
    rw [applyEffects_cons_maxT_kill 1 c 2 [] (advance 1 c) hact
      (show (2 : ℤ) < (advance 1 c).trajectoryLength from htl)]
    rfl
  rw [key]

theorem drive_msSec_parent (c : Candidate) (fuel : ℕ)
    (hpid : c.particleId = 1) (hact : c.active = true)
    (htl : c.trajectoryLength = 0) (hfuel : 3 ≤ fuel) :
    ∃ c' sec, drive fuel msSec c = .ok (c', [sec]) ∧
      c'.active = false ∧ c'.particleId = 0 ∧
      sec.particleId = 2 ∧ sec.active = true ∧
      sec.trajectoryLength = 0 ∧ sec.tags = [] := by
  obtain ⟨f, rfl⟩ : ∃ f, fuel = f + 1 + 1 + 1 := ⟨fuel - 3, by omega⟩
  have hp1 := pass_msSec_fire c hpid hact (by rw [htl]; decide)
  have hc1tl : ({ advance 1 c with particleId := 0
      } : Candidate).trajectoryLength = c.trajectoryLength + 1 := rfl
  have hc1pid : ({ advance 1 c with particleId := 0
      } : Candidate).particleId ≠ 1 := by
    intro hcon
    cases hcon
  have hp2 := pass_msSec_noFire_live ({ advance 1 c with particleId := 0 })
    hc1pid hact (by rw [hc1tl, htl]; decide)
  have hc2tl : (advance 1 ({ advance 1 c with particleId := 0 }
      : Candidate)).trajectoryLength = c.trajectoryLength + 1 + 1 := rfl
  have hc2pid : (advance 1 ({ advance 1 c with particleId := 0 }
      : Candidate)).particleId ≠ 1 := hc1pid
  have hp3 := pass_msSec_noFire_kill
    (advance 1 ({ advance 1 c with particleId := 0 })) hc2pid hact
    (by rw [show (advance 1 ({ advance 1 c with particleId := 0 }
      : Candidate)).trajectoryLength + 1 = c.trajectoryLength + 1 + 1 + 1
      from rfl, htl]; decide)
  have e3 := drive_succ_ok f msSec
    (advance 1 ({ advance 1 c with particleId := 0 })) _ _ [] [] hact hp3
    (drive_inactive f msSec _ rfl)
  have e2 := drive_succ_ok (f + 1) msSec
    ({ advance 1 c with particleId := 0 }) _ _ [] _ hact hp2 e3
  have e1 := drive_succ_ok (f + 1 + 1) msSec c _ _
    [mkSecondary ({ advance 1 c with particleId := 0 })
      (c.currentEnergy, 2)] _ hact hp1 e2
  refine ⟨_, _, e1, rfl, rfl, rfl, rfl, rfl, rfl⟩

theorem drive_msSec_secondary (c : Candidate) (fuel : ℕ)
    (hpid : c.particleId ≠ 1) (hact : c.active = true)
    (htl : c.trajectoryLength = 0) (hfuel : 3 ≤ fuel) :
    ∃ c', drive fuel msSec c = .ok (c', []) ∧
      c'.active = false ∧ c'.particleId = c.particleId := by
  obtain ⟨f, rfl⟩ : ∃ f, fuel = f + 1 + 1 + 1 := ⟨fuel - 3, by omega⟩
  have hp1 := pass_msSec_noFire_live c hpid hact (by rw [htl]; decide)
  have h1tl : (advance 1 c).trajectoryLength = c.trajectoryLength + 1 := rfl
  have hp2 := pass_msSec_noFire_live (advance 1 c) hpid hact
    (by rw [h1tl, htl]; decide)
  have h2tl : (advance 1 (advance 1 c)).trajectoryLength =
      c.trajectoryLength + 1 + 1 := rfl
  have hp3 := pass_msSec_noFire_kill (advance 1 (advance 1 c)) hpid hact
    (by rw [show (advance 1 (advance 1 c)).trajectoryLength + 1 =
      c.trajectoryLength + 1 + 1 + 1 from rfl, htl]; decide)
  have e3 := drive_succ_ok f msSec (advance 1 (advance 1 c)) _ _ [] [] hact hp3
    (drive_inactive f msSec _ rfl)
  have e2 := drive_succ_ok (f + 1) msSec (advance 1 c) _ _ [] _ hact hp2 e3
  have e1 := drive_succ_ok (f + 1 + 1) msSec c _ _ [] _ hact hp1 e2
  exact ⟨_, e1, rfl, rfl⟩

/-- One step of the worklist loop, phrased as a plain equation. -/
theorem driveWork_cons_ok (w f : Nat) (ms : List Module) (c c1 : Candidate)
    (secs : List Candidate) (rest out : List Candidate)
    (hd : drive f ms c = .ok (c1, secs))
    (hrest : driveWork w f ms (rest ++ secs) = .ok out) :
    driveWork (w + 1) f ms (c :: rest) = .ok (c1 :: out) := by
  simp only [driveWork]
  simp only [hd, hrest]

theorem driveWork_msSec :
    ∀ (wf : ℕ) (ws : List Candidate),
      (∀ c ∈ ws, parentLike c ∨ secLike c) →
      wf = ws.length + ws.countP (fun c => c.particleId == 1) →
      ∃ out, driveWork wf 3 msSec ws = .ok out ∧
        out.length = wf ∧
        (∀ c ∈ out, c.active = false) ∧
        out.countP (fun c => c.particleId == 2) =
          ws.countP (fun c => c.particleId == 1) +
          ws.countP (fun c => c.particleId == 2) := by
  intro wf
  induction wf with
  | zero =>
      intro ws _ hlen
      have hws : ws = [] := by
        cases ws with
        | nil => rfl
        | cons c rest =>
            simp only [List.length_cons] at hlen
            omega
      subst hws
      refine ⟨[], rfl, rfl, ?_, ?_⟩
      · intro c hc
        cases hc
      · simp
  | succ w ih =>
      intro ws hws hlen
      cases ws with
      | nil =>
          simp only [List.length_nil, List.countP_nil] at hlen
          omega
      | cons c rest =>
          have hrest_shape : ∀ x ∈ rest, parentLike x ∨ secLike x :=
            fun x hx => hws x (List.mem_cons_of_mem c hx)
          cases hws c (List.mem_cons_self c rest) with
          | inl hp =>
              obtain ⟨hpid, hact, htl, htags⟩ := hp
              obtain ⟨c1, sec, hdrive, hc1act, hc1pid, hsecpid, hsecact,
                hsectl, hsectags⟩ := drive_msSec_parent c 3 hpid hact htl
                (by omega)
              have hsec_shape : ∀ x ∈ rest ++ [sec],
                  parentLike x ∨ secLike x := by
                intro x hx
                rcases List.mem_append.mp hx with hx | hx
                · exact hrest_shape x hx
                · rcases List.mem_singleton.mp hx with rfl
                  exact Or.inr ⟨hsecpid, hsecact, hsectl, hsectags⟩
              have hcpos : ((c.particleId == 1) = true) := by
                rw [hpid]
                rfl
              have hsneg : ¬((sec.particleId == 1) = true) := by
                rw [hsecpid]
                decide
              have hlen2 : w = (rest ++ [sec]).length +
                  (rest ++ [sec]).countP (fun c => c.particleId == 1) := by
                rw [List.length_cons,
                  List.countP_cons_of_pos (fun x : Candidate => x.particleId == 1) rest hcpos] at hlen
                rw [List.length_append, List.countP_append,
                  List.countP_cons_of_neg (fun x : Candidate => x.particleId == 1) [] hsneg,
                  List.countP_nil]
                simp only [List.length_cons, List.length_nil]
                omega
              obtain ⟨out, hwork, hlen3, hinact, hcount⟩ :=
                ih (rest ++ [sec]) hsec_shape hlen2
              refine ⟨c1 :: out,
                driveWork_cons_ok w 3 msSec c c1 [sec] rest out hdrive hwork,
                ?_, ?_, ?_⟩
              · simp [hlen3]
              · intro x hx
                rcases List.mem_cons.mp hx with rfl | hx
                · exact hc1act
                · exact hinact x hx
              · have hc1neg : ¬((c1.particleId == 2) = true) := by
                  rw [hc1pid]
                  decide
                have hcneg2 : ¬((c.particleId == 2) = true) := by
                  rw [hpid]
                  decide
                have hsec2 : ((sec.particleId == 2) = true) := by
                  rw [hsecpid]
                  rfl
                rw [List.countP_append, List.countP_append,
                  List.countP_cons_of_neg (fun x : Candidate => x.particleId == 1) [] hsneg,
                  List.countP_cons_of_pos (fun x : Candidate => x.particleId == 2) [] hsec2,
                  List.countP_nil] at hcount
                simp only [List.countP_nil] at hcount
                rw [List.countP_cons_of_neg (fun x : Candidate => x.particleId == 2) out hc1neg,
                  List.countP_cons_of_pos (fun x : Candidate => x.particleId == 1) rest hcpos,
                  List.countP_cons_of_neg (fun x : Candidate => x.particleId == 2) rest hcneg2]
                omega
          | inr hs =>
              obtain ⟨hpid, hact, htl, htags⟩ := hs
              have hpid1 : c.particleId ≠ 1 := by rw [hpid]; decide
              obtain ⟨c1, hdrive, hc1act, hc1pid⟩ :=
                drive_msSec_secondary c 3 hpid1 hact htl (by omega)
              have hcneg : ¬((c.particleId == 1) = true) := by
                rw [hpid]
                decide
              have hlen2 : w = rest.length +
                  rest.countP (fun c => c.particleId == 1) := by
                rw [List.length_cons,
                  List.countP_cons_of_neg (fun x : Candidate => x.particleId == 1) rest hcneg] at hlen
                omega
              obtain ⟨out, hwork, hlen3, hinact, hcount⟩ :=
                ih rest hrest_shape hlen2
              have hwork2 : driveWork w 3 msSec (rest ++ []) = .ok out := by
                rw [List.append_nil]
                exact hwork
              refine ⟨c1 :: out,
                driveWork_cons_ok w 3 msSec c c1 [] rest out hdrive hwork2,
                ?_, ?_, ?_⟩
              · simp [hlen3]
              · intro x hx
                rcases List.mem_cons.mp hx with rfl | hx
                · exact hc1act
                · exact hinact x hx
              · have hc1pos : ((c1.particleId == 2) = true) := by
                  rw [hc1pid, hpid]
                  rfl
                have hcpos2 : ((c.particleId == 2) = true) := by
                  rw [hpid]
                  rfl
                rw [List.countP_cons_of_pos (fun x : Candidate => x.particleId == 2) out hc1pos,
                  List.countP_cons_of_neg (fun x : Candidate => x.particleId == 1) rest hcneg,
                  List.countP_cons_of_pos (fun x : Candidate => x.particleId == 2) rest hcpos2]
                omega

/-- C7: for a batch of N fresh input candidates (species 1), a module list
whose interaction fires for every input candidate and emits exactly one
secondary produces exactly N secondaries; each secondary is pushed onto
the worklist without interrupting its parent's drive, and every candidate
(parents and secondaries alike) is driven to termination by the same
module list before the batch run returns. -/
theorem claim_C7_secondaries_once_each (cs : List Candidate)
    (hcs : ∀ c ∈ cs, parentLike c) :
    ∃ out, runBatch (2 * cs.length) 3 msSec cs = .ok out ∧
      out.length = 2 * cs.length ∧
      (∀ c ∈ out, c.active = false) ∧
      out.countP (fun c => c.particleId == 2) = cs.length := by
  have hcount1 : cs.countP (fun c => c.particleId == 1) = cs.length := by
    apply List.countP_eq_length.mpr
    intro c hc
    rw [(hcs c hc).1]
    rfl
  have hcount2 : cs.countP (fun c => c.particleId == 2) = 0 := by
    apply List.countP_eq_zero.mpr
    intro c hc
    rw [(hcs c hc).1]
    decide
  obtain ⟨out, hwork, hlen, hinact, hcount⟩ :=
    driveWork_msSec (2 * cs.length) cs (fun c hc => Or.inl (hcs c hc))
      (by omega)
  refine ⟨out, ?_, by omega, hinact, ?_⟩
  · show driveWork (2 * cs.length) 3 msSec cs = .ok out
    exact hwork
  · rw [hcount, hcount1, hcount2]
    omega

/-- Witness for C7: one input candidate of species 1 produces exactly one
secondary and both terminate. -/
theorem claim_C7_secondaries_once_each_witness :
    (∀ c ∈ [mkCandidate1D 1 200 100], parentLike c) ∧
    (∃ out, runBatch (2 * [mkCandidate1D 1 200 100].length) 3 msSec
        [mkCandidate1D 1 200 100] = .ok out ∧
      out.length = 2 * [mkCandidate1D 1 200 100].length ∧
      (∀ c ∈ out, c.active = false) ∧
      out.countP (fun c => c.particleId == 2) =
        [mkCandidate1D 1 200 100].length) := by
  have hcs : ∀ c ∈ [mkCandidate1D 1 200 100], parentLike c := by
    intro c hc
    rcases List.mem_singleton.mp hc with rfl
    exact ⟨rfl, rfl, rfl, rfl⟩
  exact ⟨hcs, claim_C7_secondaries_once_each [mkCandidate1D 1 200 100] hcs⟩

/-! ## Claim C8 -/

theorem negotiate_msFail (c : Candidate) : negotiate c msFail = some 1 := by
  show some (min (max 0 1) (max 0 (failInteraction.sampleLen c))) = some 1
  simp only [failInteraction]
  decide

theorem pass_msFail (c : Candidate) (hact : c.active = true) :
    pass msFail c = .ok (((advance 1 c).addTag failedTag).deactivate, []) := by
  unfold pass
  rw [if_pos hact, negotiate_msFail c]
  show Except.ok (applyEffects 1 c msFail c) = _
  have key : applyEffects 1 c msFail c =
      (((advance 1 c).addTag failedTag).deactivate, []) := by
    show applyEffects 1 c [Module.propagation 1,
      Module.interaction failInteraction] c = _
    rw [applyEffects_cons_prop 1 c 1 _ c hact]
    rw [applyEffects_cons_inter_fail 1 c failInteraction [] (advance 1 c)
      hact rfl rfl]
  rw [key]

/-- C8: configuration errors (empty module list, spectrum bounds with
`emax < emin`, an unknown particle code, a source exhausted before
`count`) are fatal to the `run(source, count)` call and surfaced by
validation before any candidate is processed; whereas a module raising a
per-candidate domain error only deactivates that candidate with the
"Failed" tag — the pass returns normally, the drive terminates, and the
worklist continues with the remaining candidates. -/
theorem claim_C8_error_policy :
    (∀ (w f : ℕ) (src : Source) (count : ℕ) (draws : ℕ → ℤ),
      runSource w f [] src count draws = .error .emptyModuleList) ∧
    (∀ (w f : ℕ) (ms : List Module) (src : Source) (count : ℕ)
      (draws : ℕ → ℤ), ms ≠ [] → src.hasInvalidBounds = true →
      runSource w f ms src count draws = .error .invalidSpectrumBounds) ∧
    (∀ (w f : ℕ) (ms : List Module) (src : Source) (count : ℕ)
      (draws : ℕ → ℤ), ms ≠ [] → src.hasInvalidBounds = false →
      src.hasUnknownParticle = true →
      runSource w f ms src count draws = .error .unknownParticleCode) ∧
    (∀ (w f : ℕ) (ms : List Module) (src : Source) (count : ℕ)
      (draws : ℕ → ℤ), ms ≠ [] → src.hasInvalidBounds = false →
      src.hasUnknownParticle = false → src.exhaustedFor count = true →
      runSource w f ms src count draws = .error .sourceExhausted) ∧
    (∀ (c : Candidate) (f : ℕ), c.active = true →
      drive (f + 1) msFail c =
        .ok (((advance 1 c).addTag failedTag).deactivate, []) ∧
      (((advance 1 c).addTag failedTag).deactivate).active = false ∧
      failedTag ∈ (((advance 1 c).addTag failedTag).deactivate).tags) ∧
    (∀ (c : Candidate) (w f : ℕ) (rest out : List Candidate),
      c.active = true → driveWork w (f + 1) msFail rest = .ok out →
      driveWork (w + 1) (f + 1) msFail (c :: rest) =
        .ok ((((advance 1 c).addTag failedTag).deactivate) :: out)) := by
  have hempty : ∀ (ms : List Module), ms ≠ [] → ms.isEmpty = false := by
    intro ms hne
    cases ms with
    | nil => exact absurd rfl hne
    | cons a l => rfl
  refine ⟨?_, ?_, ?_, ?_, ?_, ?_⟩
  · intro w f src count draws
    rfl
  · intro w f ms src count draws hne hib
    simp [runSource, validateConfig, hempty ms hne, hib]
  · intro w f ms src count draws hne hib hup
    simp [runSource, validateConfig, hempty ms hne, hib, hup]
  · intro w f ms src count draws hne hib hup hex
    simp [runSource, validateConfig, hempty ms hne, hib, hup, hex]
  · intro c f hact
    refine ⟨?_, rfl, ?_⟩
    · exact drive_succ_ok f msFail c _ _ [] [] hact (pass_msFail c hact)
        (drive_inactive f msFail _ rfl)
    · show failedTag ∈ failedTag :: (advance 1 c).tags
      exact List.mem_cons_self _ _
  · intro c w f rest out hact hrest
    have hd := drive_succ_ok f msFail c _ _ [] [] hact (pass_msFail c hact)
      (drive_inactive f msFail _ rfl)
    have hrest2 : driveWork w (f + 1) msFail (rest ++ []) = .ok out := by
      rw [List.append_nil]
      exact hrest
    exact driveWork_cons_ok w (f + 1) msFail c _ [] rest out hd hrest2

/-- Witness for C8: each configuration error at a concrete bad
configuration, and the per-candidate domain-error recovery on the
notebook's proton. -/
theorem claim_C8_error_policy_witness :
    runSource 1 1 [] { props := [] } 0 (fun _ => 0) =
      .error .emptyModuleList ∧
    runSource 1 1 msFail { props := [.powerLawSpectrum 5 1 0] } 0
      (fun _ => 0) = .error .invalidSpectrumBounds ∧
    runSource 1 1 msFail { props := [.particleType 42] } 0 (fun _ => 0) =
      .error .unknownParticleCode ∧
    runSource 1 1 msFail { props := [], capacity := some 1 } 2 (fun _ => 0) =
      .error .sourceExhausted ∧
    drive 3 msFail (mkCandidate1D (nucleusId 1 1) 200 100) =
      .ok (((advance 1 (mkCandidate1D (nucleusId 1 1) 200 100)).addTag
        failedTag).deactivate, []) := by
  refine ⟨claim_C8_error_policy.1 1 1 { props := [] } 0 (fun _ => 0),
    claim_C8_error_policy.2.1 1 1 msFail { props := [.powerLawSpectrum 5 1 0] }
      0 (fun _ => 0) (List.cons_ne_nil _ _) (by decide),
    claim_C8_error_policy.2.2.1 1 1 msFail { props := [.particleType 42] }
      0 (fun _ => 0) (List.cons_ne_nil _ _) (by decide) (by decide),
    claim_C8_error_policy.2.2.2.1 1 1 msFail { props := [], capacity := some 1 }
      2 (fun _ => 0) (List.cons_ne_nil _ _) (by decide) (by decide)
      (by decide), ?_⟩
  exact (claim_C8_error_policy.2.2.2.2.1
    (mkCandidate1D (nucleusId 1 1) 200 100) 2 rfl).1

/-! ## Claim C6 -/

theorem integral_rpow_neg_one (a b : ℝ) (ha : 0 < a) (hb : 0 < b) :
    ∫ t in a..b, t ^ (-1 : ℝ) = Real.log (b / a) := by
  have hpt : ∀ x : ℝ, x ^ (-1 : ℝ) = x⁻¹ := by
    intro x
    rw [show (-1 : ℝ) = ((-1 : ℤ) : ℝ) by norm_num, Real.rpow_intCast,
      zpow_neg_one]
  simp only [hpt]
  exact integral_inv_of_pos ha hb

theorem zero_notin_uIcc (a b : ℝ) (ha : 0 < a) (hb : 0 < b) :
    (0 : ℝ) ∉ Set.uIcc a b := by
  intro hmem
  rcases Set.mem_uIcc.mp hmem with ⟨h1, _⟩ | ⟨h1, _⟩
  · exact absurd h1 (not_le.mpr ha)
  · exact absurd h1 (not_le.mpr hb)

/-- C6: inverse-CDF sampling of a power-law spectrum.  For a uniform draw
`u ∈ [0, 1]` and `0 < emin < emax`, the sampled energy lies in
`[emin, emax]`; it inverts the CDF of the density proportional to
`E ^ index` on `[emin, emax]` (the closed-form inverse when
`index ≠ -1`, the logarithmic form when `index = -1`); and for
`index = -1` the log of the sample is the affine image
`(1-u)·log emin + u·log emax` of the uniform draw, so `log E` is uniform
on `[log emin, log emax]`. -/
theorem claim_C6_power_law_sampling (emin emax index u : ℝ)
    (h1 : 0 < emin) (h2 : emin < emax) (hu0 : 0 ≤ u) (hu1 : u ≤ 1) :
    emin ≤ samplePowerLaw emin emax index u ∧
    samplePowerLaw emin emax index u ≤ emax ∧
    powerLawCdf emin emax index (samplePowerLaw emin emax index u) = u ∧
    (index = -1 → Real.log (samplePowerLaw emin emax index u) =
      (1 - u) * Real.log emin + u * Real.log emax) := by
  by_cases hidx : index = -1
  · subst hidx
    set A : ℝ := (1 - u) * Real.log emin + u * Real.log emax with hA
    have hE : samplePowerLaw emin emax (-1) u = Real.exp A := by
      simp [samplePowerLaw]
    have hlt : Real.log emin < Real.log emax := Real.log_lt_log h1 h2
    have hAlow : Real.log emin ≤ A := by
      have hm : 0 ≤ u * (Real.log emax - Real.log emin) :=
        mul_nonneg hu0 (by linarith)
      have : A - Real.log emin = u * (Real.log emax - Real.log emin) := by
        rw [hA]; ring
      linarith
    have hAhigh : A ≤ Real.log emax := by
      have hm : 0 ≤ (1 - u) * (Real.log emax - Real.log emin) :=
        mul_nonneg (by linarith) (by linarith)
      have : Real.log emax - A = (1 - u) * (Real.log emax - Real.log emin) := by
        rw [hA]; ring
      linarith
    have hEpos : 0 < Real.exp A := Real.exp_pos A
    have hlow : emin ≤ samplePowerLaw emin emax (-1) u := by
      rw [hE, ← Real.exp_log h1]
      exact Real.exp_le_exp.mpr hAlow
    have hhigh : samplePowerLaw emin emax (-1) u ≤ emax := by
      rw [hE, ← Real.exp_log (h1.trans h2)]
      exact Real.exp_le_exp.mpr hAhigh
    refine ⟨hlow, hhigh, ?_, fun _ => by rw [hE, Real.log_exp]⟩
    rw [hE]
    unfold powerLawCdf
    rw [integral_rpow_neg_one emin (Real.exp A) h1 hEpos,
      integral_rpow_neg_one emin emax h1 (h1.trans h2)]
    rw [Real.log_div hEpos.ne' h1.ne', Real.log_div (h1.trans h2).ne' h1.ne',
      Real.log_exp]
    have hD : Real.log emax - Real.log emin ≠ 0 := by linarith
    rw [show A - Real.log emin = u * (Real.log emax - Real.log emin) by
      rw [hA]; ring]
    rw [mul_div_assoc, div_self hD, mul_one]
  · have ha : index + 1 ≠ 0 := by
      intro hcon
      exact hidx (by linarith)
    set A : ℝ := emin ^ (index + 1) with hAdef
    set B : ℝ := emax ^ (index + 1) with hBdef
    set y : ℝ := A + u * (B - A) with hy
    have hA0 : 0 < A := Real.rpow_pos_of_pos h1 _
    have hB0 : 0 < B := Real.rpow_pos_of_pos (h1.trans h2) _
    have hE : samplePowerLaw emin emax index u = y ^ (index + 1)⁻¹ := by
      simp [samplePowerLaw, hidx]
    have hyBounds : (0 < y) ∧
        (0 < index + 1 → A ≤ y ∧ y ≤ B) ∧
        (index + 1 < 0 → B ≤ y ∧ y ≤ A) := by
      rcases lt_or_gt_of_ne ha with hneg | hpos
      · have hBA : B < A := Real.rpow_lt_rpow_of_neg h1 h2 hneg
        have hyB : B ≤ y := by
          have hm : 0 ≤ (1 - u) * (A - B) :=
            mul_nonneg (by linarith) (by linarith)
          have : y - B = (1 - u) * (A - B) := by rw [hy]; ring
          linarith
        have hyA : y ≤ A := by
          have hm : 0 ≤ u * (A - B) := mul_nonneg hu0 (by linarith)
          have : A - y = u * (A - B) := by rw [hy]; ring
          linarith
        exact ⟨lt_of_lt_of_le hB0 hyB, fun hc => absurd hc (by linarith),
          fun _ => ⟨hyB, hyA⟩⟩
      · have hAB : A < B := Real.rpow_lt_rpow h1.le h2 hpos
        have hyA : A ≤ y := by
          have hm : 0 ≤ u * (B - A) := mul_nonneg hu0 (by linarith)
          have : y - A = u * (B - A) := by rw [hy]; ring
          linarith
        have hyB : y ≤ B := by
          have hm : 0 ≤ (1 - u) * (B - A) :=
            mul_nonneg (by linarith) (by linarith)
          have : B - y = (1 - u) * (B - A) := by rw [hy]; ring
          linarith
        exact ⟨lt_of_lt_of_le hA0 hyA, fun _ => ⟨hyA, hyB⟩,
          fun hc => absurd hc (by linarith)⟩
    obtain ⟨hy0, hposcase, hnegcase⟩ := hyBounds
    have hEmin_eq : (emin ^ (index + 1)) ^ (index + 1)⁻¹ = emin :=
      Real.rpow_rpow_inv h1.le ha
    have hEmax_eq : (emax ^ (index + 1)) ^ (index + 1)⁻¹ = emax :=
      Real.rpow_rpow_inv (h1.trans h2).le ha
    have hlow : emin ≤ samplePowerLaw emin emax index u := by
      rw [hE]
      rcases lt_or_gt_of_ne ha with hneg | hpos
      · obtain ⟨hyB, hyA⟩ := hnegcase hneg
        have := Real.rpow_le_rpow_of_nonpos hy0 hyA
          (inv_nonpos.mpr hneg.le)
        rw [← hAdef] at hEmin_eq
        rw [hEmin_eq] at this
        exact this
      · obtain ⟨hyA, _⟩ := hposcase hpos
        have := Real.rpow_le_rpow hA0.le hyA (inv_nonneg.mpr hpos.le)
        rw [← hAdef] at hEmin_eq
        rw [hEmin_eq] at this
        exact this
    have hhigh : samplePowerLaw emin emax index u ≤ emax := by
      rw [hE]
      rcases lt_or_gt_of_ne ha with hneg | hpos
      · obtain ⟨hyB, _⟩ := hnegcase hneg
        have := Real.rpow_le_rpow_of_nonpos hB0 hyB
          (inv_nonpos.mpr hneg.le)
        rw [← hBdef] at hEmax_eq
        rw [hEmax_eq] at this
        exact this
      · obtain ⟨_, hyB⟩ := hposcase hpos
        have := Real.rpow_le_rpow hy0.le hyB (inv_nonneg.mpr hpos.le)
        rw [← hBdef] at hEmax_eq
        rw [hEmax_eq] at this
        exact this
    have hBA_ne : B - A ≠ 0 := by
      rcases lt_or_gt_of_ne ha with hneg | hpos
      · have := Real.rpow_lt_rpow_of_neg h1 h2 hneg
        rw [← hAdef, ← hBdef] at this
        linarith
      · have := Real.rpow_lt_rpow h1.le h2 hpos
        rw [← hAdef, ← hBdef] at this
        linarith
    have hEa : (samplePowerLaw emin emax index u) ^ (index + 1) = y := by
      rw [hE]
      exact Real.rpow_inv_rpow hy0.le ha
    have hEpos : 0 < samplePowerLaw emin emax index u := lt_of_lt_of_le h1 hlow
    refine ⟨hlow, hhigh, ?_, fun hcon => absurd hcon hidx⟩
    unfold powerLawCdf
    rw [integral_rpow (Or.inr ⟨hidx,
      zero_notin_uIcc emin (samplePowerLaw emin emax index u) h1 hEpos⟩)]
    rw [integral_rpow (Or.inr ⟨hidx,
      zero_notin_uIcc emin emax h1 (h1.trans h2)⟩)]
    rw [hEa, ← hAdef, ← hBdef]
    have hD : (B - A) / (index + 1) ≠ 0 := div_ne_zero hBA_ne ha
    rw [show y - A = u * (B - A) by rw [hy]; ring]
    rw [mul_div_assoc, mul_div_assoc, div_self hD, mul_one]

/-- Witness for C6 on the notebook's spectrum shape `index = -1` with
`Emin = 1`, `Emax = 2` and the draw `u = 0`. -/
theorem claim_C6_power_law_sampling_witness :
    (0 : ℝ) < 1 ∧ (1 : ℝ) < 2 ∧ (0 : ℝ) ≤ 0 ∧ (0 : ℝ) ≤ 1 ∧
    ((1 : ℝ) ≤ samplePowerLaw 1 2 (-1) 0 ∧
      samplePowerLaw 1 2 (-1) 0 ≤ 2 ∧
      powerLawCdf 1 2 (-1) (samplePowerLaw 1 2 (-1) 0) = 0 ∧
      ((-1 : ℝ) = -1 → Real.log (samplePowerLaw 1 2 (-1) 0) =
        (1 - 0) * Real.log 1 + 0 * Real.log 2)) :=
  ⟨one_pos, one_lt_two, le_refl 0, zero_le_one,
    claim_C6_power_law_sampling 1 2 (-1) 0 one_pos one_lt_two
      (le_refl 0) zero_le_one⟩

end CRPropa